import Mathlib

/-!
# Android dependency analyser: a verification development

Shallow embedding of `internal/analyzer/analyzer.go` and
`internal/graph/graph.go`.

Modelling conventions.

* A Go `string` is a list of characters (`Str`).  The inputs of interest are
  ASCII, where bytes, runes and characters coincide.  `strings.ToLower` is
  modelled on the ASCII range (`Char.toLower`); runes outside ASCII are left
  unchanged by the model.
* A Go `map[string][]string` is an association list `GoMap` with pairwise
  distinct keys.  Indexing is `mapGet`; assignment is `mapSet`;
  `range` walks the list front to back, so a statement proved for every
  list is proved for every iteration order the runtime may pick.
* A Go `map[string]bool` used as a set is a list of its `true` keys, and a
  `map[string]int` is a total function (an absent key reads as `0`).
* The descriptor read by `bufio.Scanner` is the list of its lines.
* Loops that may fail to terminate carry a fuel argument and return `none`
  when it is exhausted.
-/

namespace DepsAnalyser

/-- A Go string. -/
abbrev Str := List Char

/-! ## The parts of the Go library the program calls -/

/-- The predicate `unicode.IsSpace`: the Unicode White_Space code points. -/
def isSpace (c : Char) : Bool :=
  c = '\t' || c = '\n' || c.val = 0x0B || c.val = 0x0C || c = '\r' || c = ' ' ||
  c.val = 0x85 || c.val = 0xA0 || c.val = 0x1680 ||
  (0x2000 ≤ c.val && c.val ≤ 0x200A) ||
  c.val = 0x2028 || c.val = 0x2029 || c.val = 0x202F || c.val = 0x205F || c.val = 0x3000

/-- The function `strings.TrimSpace`: drop leading and trailing white space. -/
def trimSpace (s : Str) : Str :=
  ((s.dropWhile isSpace).reverse.dropWhile isSpace).reverse

/-- The function `strings.HasPrefix`. -/
def hasPrefix (s pre : Str) : Bool :=
  pre.isPrefixOf s

/-- The function `strings.Index`: position of the first occurrence of `sub`
in `s`; `none` stands for Go's `-1`. -/
def stringsIndex : Str → Str → Option Nat
  | [], sub => if sub.isPrefixOf [] then some 0 else none
  | c :: s, sub =>
    if sub.isPrefixOf (c :: s) then some 0
    else (stringsIndex s sub).map (· + 1)

/-- The function `strings.Contains`, which is `Index(s, sub) >= 0`. -/
def stringsContains (s sub : Str) : Bool :=
  (stringsIndex s sub).isSome

/-- The function `strings.Split` for a one-character separator. -/
def stringsSplit (s : Str) (sep : Char) : List Str :=
  s.splitOn sep

/-- The function `strings.Join`. -/
def stringsJoin (parts : List Str) (sep : Str) : Str :=
  sep.intercalate parts

/-- The function `strings.ToLower` on ASCII text: the letters `A`-`Z` are
lowercased.  Go also lowercases the uppercase runes outside ASCII, which
this model leaves unchanged, so every statement that depends on the case of
a letter is made for ASCII input only. -/
def stringsToLower (s : Str) : Str :=
  s.map Char.toLower

/-! ## `analyzer.go`: identifier normalizer -/

/-- The loop of `toKebabCase`: `i` is the index of the next rune and `acc`
the builder. -/
def kebabLoop : Str → Nat → Str → Str
  | [], _, acc => acc
  | r :: s, i, acc =>
    let acc1 := if 0 < i ∧ 'A' ≤ r ∧ r ≤ 'Z' then acc ++ ['-'] else acc
    kebabLoop s (i + 1) (acc1 ++ [r])

/-- The method `toKebabCase`. -/
def toKebabCase (s : Str) : Str :=
  stringsToLower (kebabLoop s 0 [])

/-- The method `dotToModule`. -/
def dotToModule (dotNotation : Str) : Str :=
  let dotNotation := if hasPrefix dotNotation "projects.".toList then dotNotation.drop 8
    else dotNotation
  let parts := stringsSplit dotNotation '.'
  let moduleParts := parts.map toKebabCase
  let module := stringsJoin moduleParts ":".toList
  if hasPrefix module ":".toList then module else ":".toList ++ module

/-! ## `analyzer.go`: declaration scanner -/

/-- The method `parseProjectDependency`; the empty string is "no match". -/
def parseProjectDependency (line : Str) : Str :=
  if !stringsContains line "projects.".toList then []
  else if !stringsContains line "implementation(projects.".toList &&
      !stringsContains line "api(projects.".toList &&
      !stringsContains line "compileOnly(projects.".toList then []
  else
    match stringsIndex line "projects.".toList with
    | none => []
    | some start =>
      match stringsIndex (line.drop start) ")".toList with
      | none => []
      | some stop => dotToModule ((line.drop start).take stop)

/-- The method `parseLibraryDependency`; the empty string is "no match". -/
def parseLibraryDependency (line : Str) : Str :=
  if !stringsContains line "libs.".toList && !stringsContains line "deliverooLibs.".toList then []
  else if !stringsContains line "implementation(".toList &&
      !stringsContains line "api(".toList &&
      !stringsContains line "compileOnly(".toList then []
  else
    let start : Option Nat :=
      if stringsContains line "libs.".toList then stringsIndex line "libs.".toList
      else if stringsContains line "deliverooLibs.".toList then
        stringsIndex line "deliverooLibs.".toList
      else none
    match start with
    | none => []
    | some start =>
      match stringsIndex (line.drop start) ")".toList with
      | none => []
      | some stop => (line.drop start).take stop

/-- The local variables of the scanning loop of `parseDependencies`. -/
structure ScanState where
  projectDeps : List Str
  libDeps : List Str
  inDepsBlock : Bool
  braceCount : Int
deriving DecidableEq, Repr

/-- The state before the first line. -/
def ScanState.init : ScanState :=
  { projectDeps := [], libDeps := [], inDepsBlock := false, braceCount := 0 }

/-- One iteration of the scanning loop of `parseDependencies` on the raw
line `text`. -/
def scanLine (st : ScanState) (text : Str) : ScanState :=
  let line := trimSpace text
  if stringsContains line "dependencies \x7b".toList then
    { st with inDepsBlock := true, braceCount := 1 }
  else if !st.inDepsBlock then st
  else
    let bc1 := if stringsContains line "\x7b".toList then st.braceCount + 1 else st.braceCount
    let closes := stringsContains line "\x7d".toList
    let bc2 := if closes then bc1 - 1 else bc1
    let inBlock := if closes && bc2 == 0 then false else st.inDepsBlock
    let dep := parseProjectDependency line
    let projectDeps := if dep ≠ [] then st.projectDeps ++ [dep] else st.projectDeps
    let lib := parseLibraryDependency line
    let libDeps := if lib ≠ [] then st.libDeps ++ [lib] else st.libDeps
    { projectDeps := projectDeps, libDeps := libDeps, inDepsBlock := inBlock, braceCount := bc2 }

/-- The scanning loop of `parseDependencies` over the lines of a descriptor. -/
def scanLines (st : ScanState) (lines : List Str) : ScanState :=
  lines.foldl scanLine st

/-! ## `analyzer.go`: descriptor locator and resolver -/

/-- The project tree on disk.  `files` lists the paths at which `os.Stat`
succeeds; the content is the list of lines `bufio.Scanner` delivers, or
`none` when `os.Open` fails.  `join` is `filepath.Join`. -/
structure ProjectTree where
  projectPath : Str
  join : List Str → Str
  files : List (Str × Option (List Str))

/-- Look a path up among the files of the tree. -/
def lookupFile : List (Str × Option (List Str)) → Str → Option (Option (List Str))
  | [], _ => none
  | (p, c) :: fs, path => if p = path then some c else lookupFile fs path

/-- The method `parseDependencies`: an unopenable descriptor yields two empty
lists, otherwise the lines are scanned in order. -/
def parseDependencies (T : ProjectTree) (buildFile : Str) : List Str × List Str :=
  match lookupFile T.files buildFile with
  | some (some lines) =>
    let st := scanLines ScanState.init lines
    (st.projectDeps, st.libDeps)
  | _ => ([], [])

/-- The method `toPath`. -/
def toPath (T : ProjectTree) (moduleName : Str) : Str :=
  let moduleName := if hasPrefix moduleName ":".toList then moduleName.drop 1 else moduleName
  let parts := stringsSplit moduleName ':'
  let pathParts := parts.map toKebabCase
  T.join pathParts

/-- The method `findBuildFile`; the empty string is "no descriptor". -/
def findBuildFile (T : ProjectTree) (moduleName : Str) : Str :=
  let modulePath := toPath T moduleName
  let buildFile := T.join [T.projectPath, modulePath, "build.gradle.kts".toList]
  if (lookupFile T.files buildFile).isSome then buildFile else []

/-- A Go map from strings, as an association list with distinct keys. -/
abbrev GoMap (β : Type) := List (Str × β)

/-- Map indexing with the comma-ok form: `v, ok := m[k]`. -/
def mapGet {β : Type} : GoMap β → Str → Option β
  | [], _ => none
  | (k1, v1) :: m, k => if k1 = k then some v1 else mapGet m k

/-- Map assignment `m[k] = v`. -/
def mapSet {β : Type} : GoMap β → Str → β → GoMap β
  | [], k, v => [(k, v)]
  | (k1, v1) :: m, k, v => if k1 = k then (k, v) :: m else (k1, v1) :: mapSet m k v

/-- The keys of a map. -/
def mapKeys {β : Type} : GoMap β → List Str
  | [] => []
  | (k1, _) :: m => k1 :: mapKeys m

/-- The local variables of `Analyze`. -/
structure AnalyzeState where
  projectDeps : GoMap (List Str)
  libDeps : GoMap (List Str)
  queue : List Str
  depth : Str → Int

/-- The loop `for _, dep := range projDeps` of `Analyze`: every dependency
is appended to the queue and its depth is (re)assigned from the depth the
current module has at that moment. -/
def enqueueDeps (currentModule : Str) : List Str → List Str × (Str → Int) → List Str × (Str → Int)
  | [], qd => qd
  | dep :: deps, (queue, depth) =>
    enqueueDeps currentModule deps
      (queue ++ [dep], Function.update depth dep (depth currentModule + 1))

/-- The body of the `for len(queue) > 0` loop of `Analyze`, after
`currentModule` was taken off the queue (`st.queue` is the rest). -/
def analyzeVisit (T : ProjectTree) (maxDepth : Int) (currentModule : Str)
    (st : AnalyzeState) : AnalyzeState :=
  if 0 < maxDepth ∧ maxDepth ≤ st.depth currentModule then st
  else
    let buildFile := findBuildFile T currentModule
    if buildFile ≠ [] then
      let found := parseDependencies T buildFile
      let projDeps := found.1
      let libs := found.2
      let recorded := 0 < projDeps.length ∨ 0 < libs.length
      let projectDeps := if recorded then mapSet st.projectDeps currentModule projDeps
        else st.projectDeps
      let libDeps := if recorded then mapSet st.libDeps currentModule libs else st.libDeps
      let qd := enqueueDeps currentModule projDeps (st.queue, st.depth)
      { projectDeps := projectDeps, libDeps := libDeps, queue := qd.1, depth := qd.2 }
    else st

/-- The `for len(queue) > 0` loop of `Analyze`; `fuel` bounds the number of
dequeues, and `none` means the fuel ran out before the queue drained. -/
def analyzeLoop (T : ProjectTree) (maxDepth : Int) :
    Nat → AnalyzeState → Option (GoMap (List Str) × GoMap (List Str))
  | fuel, st =>
    match st.queue with
    | [] => some (st.projectDeps, st.libDeps)
    | currentModule :: rest =>
      match fuel with
      | 0 => none
      | fuel + 1 =>
        analyzeLoop T maxDepth fuel
          (analyzeVisit T maxDepth currentModule { st with queue := rest })

/-- The method `Analyze`, run with the given fuel. -/
def Analyze (T : ProjectTree) (rootModule : Str) (maxDepth : Int) (fuel : Nat) :
    Option (GoMap (List Str) × GoMap (List Str)) :=
  analyzeLoop T maxDepth fuel
    { projectDeps := [], libDeps := [], queue := [rootModule],
      depth := Function.update (fun _ => 0) rootModule 0 }

/-! ## `graph.go`: the renderer -/

/-- One colour scheme of `DefaultColors`. -/
structure NodeColors where
  fill : Str
  text : Str
  edge : Str
deriving DecidableEq, Repr

/-- The scheme `DefaultColors.Root`. -/
def rootColors : NodeColors :=
  { fill := "#4CAF50".toList, text := "white".toList, edge := "#2E7D32".toList }

/-- The scheme `DefaultColors.Project`. -/
def projectColors : NodeColors :=
  { fill := "#81C784".toList, text := "black".toList, edge := "#2E7D32".toList }

/-- The scheme `DefaultColors.Library`. -/
def libraryColors : NodeColors :=
  { fill := "#BA68C8".toList, text := "white".toList, edge := "#6A1B9A".toList }

/-- The two kinds of dependency; the renderer treats them by the same code
up to the colour scheme and the dashed edge style. -/
inductive Kind where
  | project
  | library
deriving DecidableEq, Repr

/-- The colour scheme of a kind. -/
def Kind.colors : Kind → NodeColors
  | Kind.project => projectColors
  | Kind.library => libraryColors

/-- A statement of the diagram, before formatting. -/
inductive Stmt where
  | text (s : Str)
  | node (id fill label font : Str)
  | edge (src dst : Str) (dashed : Bool) (color : Str)
deriving DecidableEq, Repr

/-- The text `fmt.Sprintf` produces for a statement. -/
def Stmt.render : Stmt → Str
  | Stmt.text s => s
  | Stmt.node id fill label font =>
    "  \"".toList ++ id ++ "\" [fillcolor=\"".toList ++ fill ++ "\", label=\"".toList ++ label ++
      "\", fontcolor=\"".toList ++ font ++ "\"];".toList
  | Stmt.edge src dst dashed color =>
    "  \"".toList ++ src ++ "\" -> \"".toList ++ dst ++
      (if dashed then "\" [style=dashed, color=\"".toList else "\" [color=\"".toList) ++
      color ++ "\"];".toList

/-- The node declaration of a dependency `label` under identifier `id`. -/
def nodeStmt (k : Kind) (id label : Str) : Stmt :=
  Stmt.node id k.colors.fill label k.colors.text

/-- The edge statement of a kind. -/
def edgeStmt (k : Kind) (src dst : Str) : Stmt :=
  Stmt.edge src dst (k = Kind.library) k.colors.edge

/-- The four statements every diagram starts with. -/
def header (direction : Str) : List Stmt :=
  [Stmt.text "digraph Dependencies \x7b".toList,
   Stmt.text ("  rankdir=".toList ++ direction ++ ";".toList),
   Stmt.text "  node [shape=box, style=filled, width=2, height=0.5, fontname=\"Arial\"];".toList,
   Stmt.text "  edge [penwidth=1.5, fontname=\"Arial\"];".toList]

/-- The declaration of the root node. -/
def rootStmt (rootModule : Str) : Stmt :=
  Stmt.node rootModule rootColors.fill rootModule rootColors.text

/-- Shared mode, inner loop `for _, dep := range deps`. -/
def sharedDeps (k : Kind) (module : Str) : List Str → List Stmt → List Stmt
  | [], dot => dot
  | dep :: deps, dot =>
    sharedDeps k module deps (dot ++ [nodeStmt k dep dep] ++ [edgeStmt k module dep])

/-- Shared mode, outer loop `for module, deps := range m`. -/
def sharedMap (k : Kind) : GoMap (List Str) → List Stmt → List Stmt
  | [], dot => dot
  | (module, deps) :: m, dot => sharedMap k m (sharedDeps k module deps dot)

/-- The local variables of the duplicated-tree walk of `createDotContent`. -/
structure RenderState where
  dotContent : List Stmt
  processedNodes : GoMap Str
  addedNodes : List Str
  nodeCounters : Str → Nat
  queuedNodes : List Str
  processedEdges : List Str
  queue : List Str

/-- The text of `fmt.Sprintf("%s_%d", dep, n)`. -/
def cloneID (dep : Str) (n : Nat) : Str :=
  dep ++ "_".toList ++ (Nat.repr n).toList

/-- The text of `fmt.Sprintf("%s->%s", a, b)`. -/
def edgeKey (a b : Str) : Str :=
  a ++ "->".toList ++ b

/-- Assignment `s[k] = true` on a set. -/
def setAdd (s : List Str) (k : Str) : List Str :=
  if k ∈ s then s else s ++ [k]

/-- Duplicated-tree mode: the loop `for _, childDep := range childDeps`
that replays the children of the base `dep` under the clone `nodeID`. -/
def cloneChildren (k : Kind) (nodeID : Str) : List Str → RenderState → RenderState
  | [], st => st
  | childDep :: childDeps, st =>
    let key := edgeKey nodeID childDep
    if key ∉ st.processedEdges then
      let counters := Function.update st.nodeCounters childDep (st.nodeCounters childDep + 1)
      let childNodeID := cloneID childDep (counters childDep)
      let dot := st.dotContent ++ [nodeStmt k childNodeID childDep] ++
        [edgeStmt k nodeID childNodeID]
      let edges := setAdd st.processedEdges key
      let st1 : RenderState :=
        { st with dotContent := dot, nodeCounters := counters, processedEdges := edges }
      let st2 : RenderState :=
        if childNodeID ∉ st1.queuedNodes then
          { st1 with queue := st1.queue ++ [childNodeID],
                     queuedNodes := setAdd st1.queuedNodes childNodeID }
        else st1
      cloneChildren k nodeID childDeps st2
    else cloneChildren k nodeID childDeps st

/-- Duplicated-tree mode: the children of `m[dep]` when the key exists. -/
def cloneChildrenOf (k : Kind) (m : GoMap (List Str)) (nodeID dep : Str)
    (st : RenderState) : RenderState :=
  match mapGet m dep with
  | some childDeps => cloneChildren k nodeID childDeps st
  | none => st

/-- Duplicated-tree mode: the body of `for _, dep := range deps` for one
dependency `dep` of kind `k` of the dequeued `currentModule`. -/
def visitDep (projectDeps libDeps : GoMap (List Str)) (k : Kind) (currentModule dep : Str)
    (st : RenderState) : RenderState :=
  if (mapGet st.processedNodes dep).isSome then
    let counters := Function.update st.nodeCounters dep (st.nodeCounters dep + 1)
    let nodeID := cloneID dep (counters dep)
    let dot := st.dotContent ++ [nodeStmt k nodeID dep] ++ [edgeStmt k currentModule nodeID]
    let st1 : RenderState := { st with dotContent := dot, nodeCounters := counters }
    let st2 := cloneChildrenOf Kind.project projectDeps nodeID dep st1
    cloneChildrenOf Kind.library libDeps nodeID dep st2
  else
    let st1 : RenderState :=
      if dep ∉ st.addedNodes then
        { st with dotContent := st.dotContent ++ [nodeStmt k dep dep],
                  addedNodes := setAdd st.addedNodes dep }
      else st
    let key := edgeKey currentModule dep
    let st2 : RenderState :=
      if key ∉ st1.processedEdges then
        { st1 with dotContent := st1.dotContent ++ [edgeStmt k currentModule dep],
                   processedEdges := setAdd st1.processedEdges key }
      else st1
    let st3 : RenderState :=
      { st2 with processedNodes := mapSet st2.processedNodes dep currentModule }
    if dep ∉ st3.queuedNodes then
      { st3 with queue := st3.queue ++ [dep], queuedNodes := setAdd st3.queuedNodes dep }
    else st3

/-- Duplicated-tree mode: the loop `for _, dep := range deps`. -/
def visitDeps (projectDeps libDeps : GoMap (List Str)) (k : Kind) (currentModule : Str) :
    List Str → RenderState → RenderState
  | [], st => st
  | dep :: deps, st =>
    visitDeps projectDeps libDeps k currentModule deps
      (visitDep projectDeps libDeps k currentModule dep st)

/-- Duplicated-tree mode: `if deps, exists := m[currentModule]; exists`. -/
def visitDepsOf (projectDeps libDeps : GoMap (List Str)) (k : Kind) (m : GoMap (List Str))
    (currentModule : Str) (st : RenderState) : RenderState :=
  match mapGet m currentModule with
  | some deps => visitDeps projectDeps libDeps k currentModule deps st
  | none => st

/-- Duplicated-tree mode: the body of the `for len(queue) > 0` loop after
`currentModule` was taken off the queue (`st.queue` is the rest). -/
def renderVisit (projectDeps libDeps : GoMap (List Str)) (currentModule : Str)
    (st : RenderState) : RenderState :=
  let st1 : RenderState :=
    { st with queuedNodes := st.queuedNodes.filter (fun x => x ≠ currentModule) }
  let st2 := visitDepsOf projectDeps libDeps Kind.project projectDeps currentModule st1
  visitDepsOf projectDeps libDeps Kind.library libDeps currentModule st2

/-- Duplicated-tree mode: the `for len(queue) > 0` loop; `fuel` bounds the
number of dequeues, and `none` means the fuel ran out. -/
def renderLoop (projectDeps libDeps : GoMap (List Str)) : Nat → RenderState → Option RenderState
  | fuel, st =>
    match st.queue with
    | [] => some st
    | currentModule :: rest =>
      match fuel with
      | 0 => none
      | fuel + 1 =>
        renderLoop projectDeps libDeps fuel
          (renderVisit projectDeps libDeps currentModule { st with queue := rest })

/-- The function `createDotContent`, as a list of statements; `fuel` bounds
the dequeues of the duplicated-tree walk and is not used in shared mode. -/
def createDotContent (projectDeps libDeps : GoMap (List Str)) (rootModule direction : Str)
    (duplicateNodes : Bool) (fuel : Nat) : Option (List Stmt) :=
  let dotContent := header direction
  if duplicateNodes then
    let st : RenderState :=
      { dotContent := dotContent ++ [rootStmt rootModule],
        processedNodes := [],
        addedNodes := [rootModule],
        nodeCounters := fun _ => 0,
        queuedNodes := [rootModule],
        processedEdges := [],
        queue := [rootModule] }
    match renderLoop projectDeps libDeps fuel st with
    | some st1 => some (st1.dotContent ++ [Stmt.text "\x7d".toList])
    | none => none
  else
    let dot1 := dotContent ++ [rootStmt rootModule]
    let dot2 := sharedMap Kind.project projectDeps dot1
    let dot3 := sharedMap Kind.library libDeps dot2
    some (dot3 ++ [Stmt.text "\x7d".toList])

/-- The strings `createDotContent` returns. -/
def createDotText (projectDeps libDeps : GoMap (List Str)) (rootModule direction : Str)
    (duplicateNodes : Bool) (fuel : Nat) : Option (List Str) :=
  (createDotContent projectDeps libDeps rootModule direction duplicateNodes fuel).map
    (fun stmts => stmts.map Stmt.render)

/-! ## Notions used to state the properties of the resolver -/

/-- The scanner's output for the descriptor of a module. -/
def scanOf (T : ProjectTree) (m : Str) : List Str × List Str :=
  parseDependencies T (findBuildFile T m)

/-- A declared project-dependency edge: the descriptor of `u` exists and
the scanner finds the project dependency `v` in it. -/
def DeclaredEdge (T : ProjectTree) (u v : Str) : Prop :=
  findBuildFile T u ≠ [] ∧ v ∈ (scanOf T u).1

/-- A chain of exactly `n` declared project-dependency edges. -/
inductive Walk (T : ProjectTree) : Nat → Str → Str → Prop
  | refl (m : Str) : Walk T 0 m m
  | step {n : Nat} {a b c : Str} : Walk T n a b → DeclaredEdge T b c → Walk T (n + 1) a c

/-- The keys of the reference result of an unbounded run: the modules
reachable from the root through declared edges whose own descriptor exists
and declares at least one dependency of either kind. -/
def IsRefKey (T : ProjectTree) (root m : Str) : Prop :=
  Relation.ReflTransGen (DeclaredEdge T) root m ∧ findBuildFile T m ≠ [] ∧
    ((scanOf T m).1 ≠ [] ∨ (scanOf T m).2 ≠ [])

/-- The two mappings have the same keys, and every key is a module with an
existing descriptor, recorded with the scanner's output, which is not empty
on both sides. -/
def Recorded (T : ProjectTree) (st : AnalyzeState) : Prop :=
  mapKeys st.projectDeps = mapKeys st.libDeps ∧
  ∀ m ∈ mapKeys st.projectDeps, findBuildFile T m ≠ [] ∧
    mapGet st.projectDeps m = some (scanOf T m).1 ∧
    mapGet st.libDeps m = some (scanOf T m).2 ∧
    ((scanOf T m).1 ≠ [] ∨ (scanOf T m).2 ≠ [])

/-- The depth recorded for `q` is the length of some chain from the root. -/
def DepthOK (T : ProjectTree) (root : Str) (depth : Str → Int) (q : Str) : Prop :=
  ∃ n : Nat, depth q = (n : Int) ∧ Walk T n root q

/-- The invariant behind depth bounding. -/
def DepthBounded (T : ProjectTree) (root : Str) (maxDepth : Int) (st : AnalyzeState) : Prop :=
  (∀ q ∈ st.queue, DepthOK T root st.depth q) ∧
  ∀ m ∈ mapKeys st.projectDeps, ∃ n : Nat, (n : Int) < maxDepth ∧ Walk T n root m

/-- The modules `Analyze` enqueues after visiting `m` without a depth limit. -/
def children (T : ProjectTree) (m : Str) : List Str :=
  if findBuildFile T m ≠ [] then (scanOf T m).1 else []

/-- Every module that is the target of a declared edge: the project
dependencies the scanner finds in the files of the tree. -/
def edgeTargets (T : ProjectTree) : List Str :=
  T.files.flatMap (fun e => (parseDependencies T e.1).1)

/-- The invariant behind the exact result of an unbounded run. -/
def Covers (T : ProjectTree) (root : Str) (st : AnalyzeState) : Prop :=
  (∀ m ∈ mapKeys st.projectDeps, Relation.ReflTransGen (DeclaredEdge T) root m) ∧
  (∀ q ∈ st.queue, Relation.ReflTransGen (DeclaredEdge T) root q) ∧
  ∀ m, Relation.ReflTransGen (DeclaredEdge T) root m → findBuildFile T m ≠ [] →
    ((scanOf T m).1 ≠ [] ∨ (scanOf T m).2 ≠ []) →
    m ∈ mapKeys st.projectDeps ∨ ∃ q ∈ st.queue, Relation.ReflTransGen (DeclaredEdge T) q m

/-! ## Sample inputs -/

/-- A `filepath.Join` for plain relative segments: empty and `.` elements are
dropped and the rest is joined with `/`. -/
def unixJoin (parts : List Str) : Str :=
  "/".toList.intercalate (parts.filter (fun p => p ≠ [] ∧ p ≠ ".".toList))

/-- A sample tree: `:app` declares `:a` and `:b`; `:a` declares `:c` and a
library; `:b` declares `:d`; `:c` has a descriptor without dependencies and
`:d` has no descriptor. -/
def sampleTree : ProjectTree :=
  { projectPath := ".".toList
    join := unixJoin
    files :=
      [("app/build.gradle.kts".toList,
          some ["dependencies \x7b".toList, "    implementation(projects.a)".toList,
            "    api(projects.b)".toList, "\x7d".toList]),
       ("a/build.gradle.kts".toList,
          some ["dependencies \x7b".toList, "    implementation(projects.c)".toList,
            "    api(libs.x)".toList, "\x7d".toList]),
       ("b/build.gradle.kts".toList,
          some ["dependencies \x7b".toList, "    compileOnly(projects.d)".toList,
            "\x7d".toList]),
       ("c/build.gradle.kts".toList, some ["plugins \x7b".toList, "\x7d".toList])] }

/-- The result of an unbounded run on the sample tree. -/
def sampleResult : GoMap (List Str) × GoMap (List Str) :=
  ([(":app".toList, [":a".toList, ":b".toList]), (":a".toList, [":c".toList]),
    (":b".toList, [":d".toList])],
   [(":app".toList, []), (":a".toList, ["libs.x".toList]), (":b".toList, [])])

/-! ## Further notions and sample inputs used in the statements -/

/-- A rank that decreases along the declared edges of the sample tree. -/
def sampleRank (m : Str) : Nat :=
  if findBuildFile sampleTree m = "app/build.gradle.kts".toList then 2
  else if findBuildFile sampleTree m = "a/build.gradle.kts".toList then 1
  else if findBuildFile sampleTree m = "b/build.gradle.kts".toList then 1
  else 0

/-- The identifiers that are the target of an edge statement, one entry per
edge statement. -/
def edgeDsts : List Stmt → List Str
  | [] => []
  | Stmt.edge _ dst _ _ :: rest => dst :: edgeDsts rest
  | _ :: rest => edgeDsts rest

/-- The number of edge statements whose target is `id`. -/
def inDegree (stmts : List Stmt) (id : Str) : Nat :=
  (edgeDsts stmts).count id

/-- The labels under which the identifier `id` is declared. -/
def labelsOf : List Stmt → Str → List Str
  | [], _ => []
  | Stmt.node id1 _ label _ :: rest, id =>
    if id1 = id then label :: labelsOf rest id else labelsOf rest id
  | _ :: rest, id => labelsOf rest id

/-- The diamond `root -> {A, B}`, `A -> {C}`, `B -> {C}`. -/
def diamondGraph : GoMap (List Str) :=
  [("root".toList, ["A".toList, "B".toList]), ("A".toList, ["C".toList]),
   ("B".toList, ["C".toList])]

/-- A tree in which `:app` declares `:a`, `:b` and `:c_1`, and both `:a` and
`:b` declare `:c`. -/
def collisionTree : ProjectTree :=
  { projectPath := ".".toList
    join := unixJoin
    files :=
      [("app/build.gradle.kts".toList,
          some ["dependencies \x7b".toList, "    implementation(projects.a)".toList,
            "    implementation(projects.b)".toList, "    implementation(projects.c_1)".toList,
            "\x7d".toList]),
       ("a/build.gradle.kts".toList,
          some ["dependencies \x7b".toList, "    implementation(projects.c)".toList,
            "\x7d".toList]),
       ("b/build.gradle.kts".toList,
          some ["dependencies \x7b".toList, "    implementation(projects.c)".toList,
            "\x7d".toList])] }

/-- The project mapping `Analyze` returns on `collisionTree`. -/
def collisionGraph : GoMap (List Str) :=
  [(":app".toList, [":a".toList, ":b".toList, ":c_1".toList]), (":a".toList, [":c".toList]),
   (":b".toList, [":c".toList])]

/-- The library mapping `Analyze` returns on `collisionTree`. -/
def collisionLibs : GoMap (List Str) :=
  [(":app".toList, []), (":a".toList, []), (":b".toList, [])]

/-- Shared mode as the specification words it: one node declaration and one
edge per occurrence of a dependency in the list of an owning module. -/
def sharedPairs (k : Kind) (m : GoMap (List Str)) : List Stmt :=
  m.flatMap (fun e => e.2.flatMap (fun d =>
    [Stmt.node d k.colors.fill d k.colors.text,
     Stmt.edge e.1 d (decide (k = Kind.library)) k.colors.edge]))

/-- The number of dependency occurrences in a mapping. -/
def occurrences (m : GoMap (List Str)) : Nat :=
  (m.map (fun e => e.2.length)).sum

/-- The three configuration keywords of a declaration. -/
def declKeywords : List Str :=
  ["implementation".toList, "api".toList, "compileOnly".toList]

/-- The project declaration line `k(projects.<segs joined by dots>)`. -/
def projectDecl (k : Str) (segs : List Str) : Str :=
  k ++ "(projects.".toList ++ stringsJoin segs ".".toList ++ ")".toList

/-- The two library-reference prefixes. -/
def libPrefixes : List Str :=
  ["libs.".toList, "deliverooLibs.".toList]

/-- The library declaration line `k(<p><n>)`. -/
def libraryDecl (k p n : Str) : Str :=
  k ++ "(".toList ++ p ++ n ++ ")".toList

/-- The text that opens a dependency block. -/
def opener : Str := "dependencies \x7b".toList

/-- The brace depth at character level: `+1` for every opening brace and
`-1` for every closing brace of the text. -/
def charDepth (d : Int) (s : Str) : Int :=
  s.foldl (fun acc c => if c = '\x7b' then acc + 1 else if c = '\x7d' then acc - 1 else acc) d

/-- The change of brace depth a line makes at character level. -/
def braceDelta (l : Str) : Int :=
  (l.count '\x7b' : Int) - (l.count '\x7d' : Int)

/-- The dependencies the line parser `f` finds in the given lines, in order. -/
def yields (f : Str → Str) (lines : List Str) : List Str :=
  (lines.map (fun l => f (trimSpace l))).filter (fun d => d ≠ [])

/-- A descriptor whose block holds a line with two opening braces, closed on
two later lines, followed by a project declaration. -/
def nestedDescriptor : List Str :=
  ["dependencies \x7b".toList,
   "    implementation(libs.retrofit) \x7b artifact \x7b".toList,
   "        classifier = null".toList,
   "    \x7d".toList,
   "    \x7d".toList,
   "    implementation(projects.account.accountDomain)".toList,
   "\x7d".toList]

/-- A block body with one nested brace pair followed by a declaration. -/
def nestedBody : List Str :=
  ["    implementation(libs.retrofit) \x7b".toList,
   "        isTransitive = false".toList,
   "    \x7d".toList,
   "    implementation(projects.account.accountDomain)".toList]

/-! ## Notions and sample inputs for termination, depth and tokens -/

/-- Modelled from the spec: `moduleToDotNotation` is named by the
specification but is not part of the source; it drops the leading `:`,
replaces each `:` by `.` and prepends `projects.`. -/
def moduleToDotNotation (m : Str) : Str :=
  "projects.".toList ++
    ((if hasPrefix m ":".toList then m.drop 1 else m).map (fun c => if c = ':' then '.' else c))

/-- Kebab-casing as the specification words it: a `-` before each uppercase
letter `A`-`Z` that is not the first character, then every letter lowercased. -/
def kebabSpec : Str → Str
  | [] => []
  | c :: rest =>
    (c :: rest.flatMap (fun r => if 'A' ≤ r ∧ r ≤ 'Z' then ['-', r] else [r])).map Char.toLower

/-- The identifiers that are the source of an edge statement, one entry per
edge statement. -/
def edgeSrcs : List Stmt → List Str
  | [] => []
  | Stmt.edge src _ _ _ :: rest => src :: edgeSrcs rest
  | _ :: rest => edgeSrcs rest

/-- The number of edge statements whose source is `id`. -/
def outDegree (stmts : List Stmt) (id : Str) : Nat :=
  (edgeSrcs stmts).count id

/-- The clone declarations of a diagram: the node declarations whose
identifier differs from the label. -/
def cloneDecls : List Stmt → List Stmt
  | [] => []
  | Stmt.node id fill label font :: rest =>
    if id ≠ label then Stmt.node id fill label font :: cloneDecls rest else cloneDecls rest
  | _ :: rest => cloneDecls rest

/-- A tree with a dependency cycle: `:a` declares `:b` and `:b` declares `:a`. -/
def cycleTree : ProjectTree :=
  { projectPath := ".".toList
    join := unixJoin
    files :=
      [("a/build.gradle.kts".toList,
          some ["dependencies \x7b".toList, "    implementation(projects.b)".toList,
            "\x7d".toList]),
       ("b/build.gradle.kts".toList,
          some ["dependencies \x7b".toList, "    implementation(projects.a)".toList,
            "\x7d".toList])] }

/-- A tree in which `:root` declares `:a` and `:b`, `:a` declares `:b`, and
`:b` declares `:c`. -/
def rediscoverTree : ProjectTree :=
  { projectPath := ".".toList
    join := unixJoin
    files :=
      [("root/build.gradle.kts".toList,
          some ["dependencies \x7b".toList, "    implementation(projects.a)".toList,
            "    implementation(projects.b)".toList, "\x7d".toList]),
       ("a/build.gradle.kts".toList,
          some ["dependencies \x7b".toList, "    implementation(projects.b)".toList,
            "\x7d".toList]),
       ("b/build.gradle.kts".toList,
          some ["dependencies \x7b".toList, "    implementation(projects.c)".toList,
            "\x7d".toList])] }

/-- The chain under a diamond: `root -> {A, B}`, `A -> {C}`, `B -> {C}`,
`C -> {D}`, `D -> {E}`. -/
def chainGraph : GoMap (List Str) :=
  [("root".toList, ["A".toList, "B".toList]), ("A".toList, ["C".toList]),
   ("B".toList, ["C".toList]), ("C".toList, ["D".toList]), ("D".toList, ["E".toList])]

/-- The two-module cycle `A -> {B}`, `B -> {A}`. -/
def cycleGraph : GoMap (List Str) :=
  [("A".toList, ["B".toList]), ("B".toList, ["A".toList])]

/-- Whether the text `token` stands in `line` immediately after one of the
three declaration forms `implementation(`, `api(` and `compileOnly(`. -/
def followsForm (line token : Str) : Bool :=
  declKeywords.any (fun k => stringsContains line (k ++ "(".toList ++ token))

/-- The level of a queued module: its recorded depth, capped at `D`. -/
def depthLevel (D : Nat) (depth : Str → Int) (q : Str) : Nat :=
  min (depth q).toNat D

/-- The number of queue entries at level `j`. -/
def levelCount (D : Nat) (depth : Str → Int) (queue : List Str) (j : Nat) : Nat :=
  queue.countP (fun q => decide (depthLevel D depth q = j))

/-- The lexicographic order on the level counts of a queue, lowest level
first. -/
def LevelLex (D : Nat) (x y : Fin (D + 1) → Nat) : Prop :=
  Pi.Lex (fun a b : Fin (D + 1) => a < b) (fun {_} (a b : Nat) => a < b) x y

/-- The state of `Analyze(:root, 2)` on `rediscoverTree` after `:root` was
visited. -/
def rediscoverAfterRoot : AnalyzeState :=
  analyzeVisit rediscoverTree 2 ":root".toList
    { projectDeps := [], libDeps := [], queue := [],
      depth := Function.update (fun _ => 0) ":root".toList 0 }

/-- The state of `Analyze(:root, 2)` on `rediscoverTree` after `:root` and
then `:a` were visited. -/
def rediscoverAfterA : AnalyzeState :=
  analyzeVisit rediscoverTree 2 ":a".toList
    { rediscoverAfterRoot with queue := rediscoverAfterRoot.queue.tail }

/-- The value of a list of decimal digit characters, most significant first,
continuing from `acc`. -/
def digitsValue (acc : Nat) (l : List Char) : Nat :=
  l.foldl (fun a c => a * 10 + (c.toNat - 48)) acc

/-- Every dependency that occurs in a list of either mapping. -/
def allDeps (projectDeps libDeps : GoMap (List Str)) : List Str :=
  projectDeps.flatMap (fun e => e.2) ++ libDeps.flatMap (fun e => e.2)

/-- Whether `q` is a key of either mapping. -/
def isKey (projectDeps libDeps : GoMap (List Str)) (q : Str) : Bool :=
  (mapGet projectDeps q).isSome || (mapGet libDeps q).isSome

/-- The weight of a queue entry that is a key of the graph: one more than the
square of the number of dependency occurrences. -/
def heavy (projectDeps libDeps : GoMap (List Str)) : Nat :=
  (allDeps projectDeps libDeps).length * (allDeps projectDeps libDeps).length + 1

/-- The weight of the render queue: `heavy` for a key, `1` for any other
entry. -/
def queueWeight (projectDeps libDeps : GoMap (List Str)) (queue : List Str) : Nat :=
  (queue.map (fun q => if isKey projectDeps libDeps q then heavy projectDeps libDeps else 1)).sum

/-- How far the clone counters of the dependencies are below the cap `N`. -/
def capSum (N : Nat) (deps : List Str) (counters : Str → Nat) : Nat :=
  (deps.map (fun c => N - counters c)).sum

/-- The number of dependency occurrences not yet claimed by a parent. -/
def unclaimed (deps : List Str) (processedNodes : GoMap Str) : Nat :=
  deps.countP (fun d => (mapGet processedNodes d).isNone)

/-- The slack of a render state: counters below the cap plus unclaimed
dependencies. -/
def renderSlack (projectDeps libDeps : GoMap (List Str)) (N : Nat) (st : RenderState) : Nat :=
  capSum N (allDeps projectDeps libDeps) st.nodeCounters +
    unclaimed (allDeps projectDeps libDeps) st.processedNodes

/-- The measure that bounds the remaining dequeues of the duplicated-tree
walk. -/
def renderPotential (projectDeps libDeps : GoMap (List Str)) (N : Nat) (st : RenderState) :
    Nat :=
  queueWeight projectDeps libDeps st.queue +
    heavy projectDeps libDeps * renderSlack projectDeps libDeps N st

/-- The length of the list stored under `q`, `0` when `q` is not a key. -/
def listLen (m : GoMap (List Str)) (q : Str) : Nat :=
  match mapGet m q with
  | some l => l.length
  | none => 0

/-- An edge of a project mapping: `v` occurs in the list stored under `u`. -/
def GraphEdge (m : GoMap (List Str)) (u v : Str) : Prop :=
  ∃ deps, mapGet m u = some deps ∧ v ∈ deps

/-! # Theorems -/

/-! ## Facts about maps -/

theorem mapKeys_mapSet {β : Type} (m : GoMap β) (k : Str) (v : β) :
    mapKeys (mapSet m k v) = if k ∈ mapKeys m then mapKeys m else mapKeys m ++ [k] := by
  induction m with
  | nil => simp [mapSet, mapKeys]
  | cons e m ih =>
    obtain ⟨k1, v1⟩ := e
    by_cases h : k1 = k
    · subst h; simp [mapSet, mapKeys]
    · have h2 : ¬ k = k1 := fun e => h e.symm
      simp only [mapSet, if_neg h, mapKeys, List.mem_cons, h2, false_or, ih]
      split <;> simp

theorem mem_mapKeys_mapSet {β : Type} (m : GoMap β) (k : Str) (v : β) (x : Str) :
    x ∈ mapKeys (mapSet m k v) ↔ x = k ∨ x ∈ mapKeys m := by
  rw [mapKeys_mapSet]
  split
  · constructor
    · exact fun h => Or.inr h
    · rintro (rfl | h) <;> assumption
  · simp [or_comm]

theorem mapGet_mapSet_self {β : Type} (m : GoMap β) (k : Str) (v : β) :
    mapGet (mapSet m k v) k = some v := by
  induction m with
  | nil => simp [mapSet, mapGet]
  | cons e m ih =>
    obtain ⟨k1, v1⟩ := e
    by_cases h : k1 = k
    · simp [mapSet, mapGet, h]
    · simp [mapSet, mapGet, h, ih]

theorem mapGet_mapSet_ne {β : Type} (m : GoMap β) (k : Str) (v : β) (x : Str) (hx : x ≠ k) :
    mapGet (mapSet m k v) x = mapGet m x := by
  induction m with
  | nil => simp [mapSet, mapGet, hx.symm]
  | cons e m ih =>
    obtain ⟨k1, v1⟩ := e
    by_cases h : k1 = k
    · subst h; simp [mapSet, mapGet, hx.symm]
    · by_cases h3 : k1 = x
      · subst h3; simp [mapSet, mapGet, h]
      · simp [mapSet, mapGet, h, h3, ih]

theorem mapGet_isSome_iff {β : Type} (m : GoMap β) (x : Str) :
    (mapGet m x).isSome = true ↔ x ∈ mapKeys m := by
  induction m with
  | nil => simp [mapGet, mapKeys]
  | cons e m ih =>
    obtain ⟨k1, v1⟩ := e
    by_cases h : k1 = x
    · simp [mapGet, mapKeys, h]
    · have h2 : ¬ x = k1 := fun e => h e.symm
      simp [mapGet, mapKeys, h, h2, ih]

/-! ## Facts about the resolver loop -/

theorem enqueueDeps_queue (cur : Str) (deps : List Str) (q : List Str) (d : Str → Int) :
    (enqueueDeps cur deps (q, d)).1 = q ++ deps := by
  induction deps generalizing q d with
  | nil => simp [enqueueDeps]
  | cons dep deps ih => simp [enqueueDeps, ih]

/-- What the loop must preserve for a property of the state to hold of the
result. -/
theorem analyzeLoop_invariant (T : ProjectTree) (maxDepth : Int) (P : AnalyzeState → Prop)
    (hstep : ∀ cur st, P { st with queue := cur :: st.queue } →
      P (analyzeVisit T maxDepth cur st))
    (fuel : Nat) (st : AnalyzeState) (res : GoMap (List Str) × GoMap (List Str))
    (hP : P st) (hres : analyzeLoop T maxDepth fuel st = some res) :
    ∃ st1, P st1 ∧ st1.queue = [] ∧ res = (st1.projectDeps, st1.libDeps) := by
  induction fuel generalizing st with
  | zero =>
    unfold analyzeLoop at hres
    cases hq : st.queue with
    | nil =>
      rw [hq] at hres
      simp only [Option.some.injEq] at hres
      exact ⟨st, hP, hq, hres.symm⟩
    | cons cur rest => rw [hq] at hres; simp at hres
  | succ fuel ih =>
    unfold analyzeLoop at hres
    cases hq : st.queue with
    | nil =>
      rw [hq] at hres
      simp only [Option.some.injEq] at hres
      exact ⟨st, hP, hq, hres.symm⟩
    | cons cur rest =>
      rw [hq] at hres
      simp only at hres
      refine ih _ (hstep cur { st with queue := rest } ?_) hres
      have : ({ st with queue := cur :: rest } : AnalyzeState) = st := by
        cases st; simp_all
      simpa [this] using hP

theorem analyzeVisit_eq_self (T : ProjectTree) (maxDepth : Int) (cur : Str) (st : AnalyzeState)
    (h : (0 < maxDepth ∧ maxDepth ≤ st.depth cur) ∨ findBuildFile T cur = [] ∨
      ((scanOf T cur).1 = [] ∧ (scanOf T cur).2 = [])) :
    analyzeVisit T maxDepth cur st = st := by
  unfold analyzeVisit
  by_cases hs : 0 < maxDepth ∧ maxDepth ≤ st.depth cur
  · rw [if_pos hs]
  · rw [if_neg hs]
    by_cases hf : findBuildFile T cur = []
    · simp [hf]
    · rcases h with h | h | ⟨h1, h2⟩
      · exact absurd h hs
      · exact absurd h hf
      · simp only [scanOf] at h1 h2
        simp [hf, h1, h2, enqueueDeps]

theorem analyzeVisit_eq_record (T : ProjectTree) (maxDepth : Int) (cur : Str)
    (st : AnalyzeState) (hs : ¬ (0 < maxDepth ∧ maxDepth ≤ st.depth cur))
    (hf : findBuildFile T cur ≠ [])
    (hne : (scanOf T cur).1 ≠ [] ∨ (scanOf T cur).2 ≠ []) :
    analyzeVisit T maxDepth cur st =
      { projectDeps := mapSet st.projectDeps cur (scanOf T cur).1,
        libDeps := mapSet st.libDeps cur (scanOf T cur).2,
        queue := st.queue ++ (scanOf T cur).1,
        depth := (enqueueDeps cur (scanOf T cur).1 (st.queue, st.depth)).2 } := by
  unfold analyzeVisit
  rw [if_neg hs]
  have hrec : 0 < (scanOf T cur).1.length ∨ 0 < (scanOf T cur).2.length := by
    rcases hne with h | h
    · exact Or.inl (List.length_pos.mpr h)
    · exact Or.inr (List.length_pos.mpr h)
  simp only [scanOf] at hrec ⊢
  simp only [hf, ne_eq, not_false_eq_true, if_true, hrec, enqueueDeps_queue]

theorem analyzeVisit_split (T : ProjectTree) (maxDepth : Int) (cur : Str) (st : AnalyzeState) :
    (((0 < maxDepth ∧ maxDepth ≤ st.depth cur) ∨ findBuildFile T cur = [] ∨
        ((scanOf T cur).1 = [] ∧ (scanOf T cur).2 = [])) ∧
      analyzeVisit T maxDepth cur st = st) ∨
    (¬ (0 < maxDepth ∧ maxDepth ≤ st.depth cur) ∧ findBuildFile T cur ≠ [] ∧
      ((scanOf T cur).1 ≠ [] ∨ (scanOf T cur).2 ≠ []) ∧
      analyzeVisit T maxDepth cur st =
        { projectDeps := mapSet st.projectDeps cur (scanOf T cur).1,
          libDeps := mapSet st.libDeps cur (scanOf T cur).2,
          queue := st.queue ++ (scanOf T cur).1,
          depth := (enqueueDeps cur (scanOf T cur).1 (st.queue, st.depth)).2 }) := by
  by_cases hs : 0 < maxDepth ∧ maxDepth ≤ st.depth cur
  · exact Or.inl ⟨Or.inl hs, analyzeVisit_eq_self T maxDepth cur st (Or.inl hs)⟩
  · by_cases hf : findBuildFile T cur = []
    · exact Or.inl ⟨Or.inr (Or.inl hf),
        analyzeVisit_eq_self T maxDepth cur st (Or.inr (Or.inl hf))⟩
    · by_cases hne : (scanOf T cur).1 ≠ [] ∨ (scanOf T cur).2 ≠ []
      · exact Or.inr ⟨hs, hf, hne, analyzeVisit_eq_record T maxDepth cur st hs hf hne⟩
      · have h1 : (scanOf T cur).1 = [] := by_contra fun h => hne (Or.inl h)
        have h2 : (scanOf T cur).2 = [] := by_contra fun h => hne (Or.inr h)
        exact Or.inl ⟨Or.inr (Or.inr ⟨h1, h2⟩),
          analyzeVisit_eq_self T maxDepth cur st (Or.inr (Or.inr ⟨h1, h2⟩))⟩

theorem recorded_visit (T : ProjectTree) (maxDepth : Int) (cur : Str) (st : AnalyzeState)
    (h : Recorded T st) : Recorded T (analyzeVisit T maxDepth cur st) := by
  rcases analyzeVisit_split T maxDepth cur st with ⟨_, he⟩ | ⟨_, hf, hne, he⟩
  · rw [he]; exact h
  · rw [he]
    obtain ⟨hk, hall⟩ := h
    refine ⟨?_, ?_⟩
    · simp only [mapKeys_mapSet, hk]
    · intro m hm
      simp only at hm ⊢
      by_cases hmc : m = cur
      · subst hmc
        exact ⟨hf, mapGet_mapSet_self _ _ _, mapGet_mapSet_self _ _ _, hne⟩
      · rw [mem_mapKeys_mapSet] at hm
        rcases hm with hm | hm
        · exact absurd hm hmc
        · obtain ⟨a, b, c, d⟩ := hall m hm
          exact ⟨a, by rw [mapGet_mapSet_ne _ _ _ _ hmc]; exact b,
            by rw [mapGet_mapSet_ne _ _ _ _ hmc]; exact c, d⟩

theorem recorded_result (T : ProjectTree) (root : Str) (maxDepth : Int) (fuel : Nat)
    (res : GoMap (List Str) × GoMap (List Str))
    (hres : Analyze T root maxDepth fuel = some res) :
    mapKeys res.1 = mapKeys res.2 ∧
    ∀ m ∈ mapKeys res.1, findBuildFile T m ≠ [] ∧
      mapGet res.1 m = some (scanOf T m).1 ∧ mapGet res.2 m = some (scanOf T m).2 ∧
      ((scanOf T m).1 ≠ [] ∨ (scanOf T m).2 ≠ []) := by
  unfold Analyze at hres
  obtain ⟨st1, hP, _, rfl⟩ := analyzeLoop_invariant T maxDepth (Recorded T)
    (fun cur st h => recorded_visit T maxDepth cur st (by simpa [Recorded] using h))
    fuel _ res (by simp [Recorded, mapKeys]) hres
  exact hP

theorem enqueueDeps_depthOK (T : ProjectTree) (root cur : Str) (deps : List Str)
    (hedge : ∀ dep ∈ deps, DeclaredEdge T cur dep) (q : List Str) (d : Str → Int)
    (hcur : DepthOK T root d cur) (hq : ∀ x ∈ q, DepthOK T root d x) :
    ∀ x ∈ (enqueueDeps cur deps (q, d)).1,
      DepthOK T root (enqueueDeps cur deps (q, d)).2 x := by
  induction deps generalizing q d with
  | nil => simpa [enqueueDeps] using hq
  | cons dep deps ih =>
    simp only [enqueueDeps]
    obtain ⟨n, hn, hw⟩ := hcur
    have hdep : DepthOK T root (Function.update d dep (d cur + 1)) dep :=
      ⟨n + 1, by simp [hn], Walk.step hw (hedge dep (List.mem_cons_self _ _))⟩
    have hkeep : ∀ x, DepthOK T root d x →
        DepthOK T root (Function.update d dep (d cur + 1)) x := by
      intro x hx
      by_cases hxd : x = dep
      · subst hxd; exact hdep
      · obtain ⟨k, hk, hwk⟩ := hx
        exact ⟨k, by simp [Function.update, hxd, hk], hwk⟩
    apply ih (fun y hy => hedge y (List.mem_cons_of_mem _ hy))
    · exact hkeep cur ⟨n, hn, hw⟩
    · intro x hx
      rcases List.mem_append.mp hx with hx | hx
      · exact hkeep x (hq x hx)
      · have : x = dep := by simpa using hx
        subst this; exact hdep

theorem depthBounded_visit (T : ProjectTree) (root : Str) (maxDepth : Int) (hpos : 0 < maxDepth)
    (cur : Str) (st : AnalyzeState)
    (h : DepthBounded T root maxDepth { st with queue := cur :: st.queue }) :
    DepthBounded T root maxDepth (analyzeVisit T maxDepth cur st) := by
  obtain ⟨hq, hk⟩ := h
  simp only [List.mem_cons, forall_eq_or_imp] at hq
  obtain ⟨hcur, hq⟩ := hq
  rcases analyzeVisit_split T maxDepth cur st with ⟨_, he⟩ | ⟨hs, hf, _, he⟩
  · rw [he]; exact ⟨hq, hk⟩
  · rw [he]
    refine ⟨?_, ?_⟩
    · have := enqueueDeps_depthOK T root cur (scanOf T cur).1
        (fun dep hdep => ⟨hf, hdep⟩) st.queue st.depth hcur hq
      rw [enqueueDeps_queue] at this
      exact this
    · intro m hm
      simp only [mem_mapKeys_mapSet] at hm
      rcases hm with rfl | hm
      · obtain ⟨n, hn, hw⟩ := hcur
        refine ⟨n, ?_, hw⟩
        have : ¬ maxDepth ≤ st.depth m := fun hle => hs ⟨hpos, hle⟩
        omega
      · exact hk m hm

theorem walk_zero (T : ProjectTree) (a b : Str) (h : Walk T 0 a b) : b = a := by
  cases h; rfl

/-! ## Termination and exact result on acyclic trees -/

theorem mem_children_iff (T : ProjectTree) (u v : Str) :
    v ∈ children T u ↔ DeclaredEdge T u v := by
  unfold children DeclaredEdge
  by_cases h : findBuildFile T u = [] <;> simp [h]

theorem analyzeVisit_queue_zero (T : ProjectTree) (cur : Str) (st : AnalyzeState) :
    (analyzeVisit T 0 cur st).queue = st.queue ++ children T cur := by
  rcases analyzeVisit_split T 0 cur st with ⟨hwhy, he⟩ | ⟨_, hf, _, he⟩
  · rw [he]
    rcases hwhy with h | h | ⟨h, _⟩
    · simp at h
    · simp [children, h]
    · simp [children, h]
  · rw [he]; simp [children, hf]

theorem analyzeLoop_terminates (T : ProjectTree) (W : Str → Nat)
    (hW : ∀ m, W m = 1 + ((children T m).map W).sum) (fuel : Nat) (st : AnalyzeState)
    (hfuel : (st.queue.map W).sum ≤ fuel) :
    ∃ res, analyzeLoop T 0 fuel st = some res := by
  induction fuel generalizing st with
  | zero =>
    unfold analyzeLoop
    cases hq : st.queue with
    | nil => exact ⟨_, rfl⟩
    | cons cur rest =>
      rw [hq] at hfuel
      have := hW cur
      simp only [List.map_cons, List.sum_cons] at hfuel
      omega
  | succ fuel ih =>
    unfold analyzeLoop
    cases hq : st.queue with
    | nil => exact ⟨_, rfl⟩
    | cons cur rest =>
      simp only
      apply ih
      rw [analyzeVisit_queue_zero]
      rw [hq] at hfuel
      have := hW cur
      simp only [List.map_cons, List.sum_cons, List.map_append, List.sum_append] at hfuel ⊢
      omega

theorem analyzeLoop_mono (T : ProjectTree) (maxDepth : Int) (fuel : Nat) (st : AnalyzeState)
    (res : GoMap (List Str) × GoMap (List Str))
    (h : analyzeLoop T maxDepth fuel st = some res) (fuel1 : Nat) (hle : fuel ≤ fuel1) :
    analyzeLoop T maxDepth fuel1 st = some res := by
  induction fuel generalizing st fuel1 with
  | zero =>
    unfold analyzeLoop at h ⊢
    cases hq : st.queue with
    | nil => rw [hq] at h; simpa using h
    | cons cur rest => rw [hq] at h; simp at h
  | succ fuel ih =>
    unfold analyzeLoop at h ⊢
    cases hq : st.queue with
    | nil => rw [hq] at h; simpa using h
    | cons cur rest =>
      rw [hq] at h
      simp only at h
      obtain ⟨k, rfl⟩ : ∃ k, fuel1 = k + 1 := ⟨fuel1 - 1, by omega⟩
      simp only
      exact ih _ h k (by omega)

theorem lookupFile_isSome_mem (files : List (Str × Option (List Str))) (p : Str)
    (h : (lookupFile files p).isSome = true) : ∃ c, (p, c) ∈ files := by
  induction files with
  | nil => simp [lookupFile] at h
  | cons e fs ih =>
    obtain ⟨p1, c1⟩ := e
    by_cases hp : p1 = p
    · subst hp; exact ⟨c1, List.mem_cons_self _ _⟩
    · simp only [lookupFile, if_neg hp] at h
      obtain ⟨c, hc⟩ := ih h
      exact ⟨c, List.mem_cons_of_mem _ hc⟩

theorem findBuildFile_isSome (T : ProjectTree) (m : Str) (h : findBuildFile T m ≠ []) :
    (lookupFile T.files (findBuildFile T m)).isSome = true := by
  unfold findBuildFile at h ⊢
  simp only at h ⊢
  split at h
  · rename_i hs; rw [if_pos hs]; exact hs
  · exact absurd rfl h

theorem edge_target_mem (T : ProjectTree) (u v : Str) (h : DeclaredEdge T u v) :
    v ∈ edgeTargets T := by
  obtain ⟨hf, hv⟩ := h
  obtain ⟨c, hc⟩ := lookupFile_isSome_mem _ _ (findBuildFile_isSome T u hf)
  unfold edgeTargets
  rw [List.mem_flatMap]
  exact ⟨_, hc, hv⟩

/-- In a finite tree without a dependency cycle no chain of declared edges
goes on forever. -/
theorem wellFounded_of_acyclic (T : ProjectTree)
    (hacyc : ∀ m, ¬ Relation.TransGen (DeclaredEdge T) m m) :
    WellFounded (fun v u => DeclaredEdge T u v) := by
  let V := {v : Str // v ∈ edgeTargets T}
  let r : V → V → Prop := fun a b => Relation.TransGen (DeclaredEdge T) b.1 a.1
  haveI : Finite V := (List.finite_toSet (edgeTargets T)).to_subtype
  haveI : IsTrans V r := ⟨fun a b c hab hbc => Relation.TransGen.trans hbc hab⟩
  haveI : IsIrrefl V r := ⟨fun a h => hacyc a.1 h⟩
  have hwf : WellFounded r := Finite.wellFounded_of_trans_of_irrefl r
  have hV : ∀ a : V, Acc (fun v u => DeclaredEdge T u v) a.1 := by
    intro a
    induction a using hwf.induction with
    | _ a ih =>
      refine Acc.intro _ (fun y hy => ?_)
      exact ih ⟨y, edge_target_mem T _ _ hy⟩ (Relation.TransGen.single hy)
  exact ⟨fun x => Acc.intro _ (fun y hy => hV ⟨y, edge_target_mem T _ _ hy⟩)⟩

theorem weight_exists (T : ProjectTree)
    (hacyc : ∀ m, ¬ Relation.TransGen (DeclaredEdge T) m m) :
    ∃ W : Str → Nat, ∀ m, W m = 1 + ((children T m).map W).sum := by
  have hwf := wellFounded_of_acyclic T hacyc
  refine ⟨hwf.fix (fun m rec => 1 + ((children T m).pmap (fun c hc => rec c hc)
    (fun c hc => (mem_children_iff T m c).mp hc)).sum), fun m => ?_⟩
  rw [WellFounded.fix_eq]
  congr 2
  exact List.pmap_eq_map _ _ _ _

theorem covers_visit (T : ProjectTree) (root cur : Str) (st : AnalyzeState)
    (h : Covers T root { st with queue := cur :: st.queue }) :
    Covers T root (analyzeVisit T 0 cur st) := by
  obtain ⟨hk, hq, hc⟩ := h
  simp only [List.mem_cons, forall_eq_or_imp, exists_eq_or_imp] at hq hc
  obtain ⟨hcur, hq⟩ := hq
  rcases analyzeVisit_split T 0 cur st with ⟨hwhy, he⟩ | ⟨_, hf, hne, he⟩
  · have hskip : findBuildFile T cur = [] ∨ ((scanOf T cur).1 = [] ∧ (scanOf T cur).2 = []) := by
      rcases hwhy with h | h | h
      · simp at h
      · exact Or.inl h
      · exact Or.inr h
    rw [he]
    refine ⟨hk, hq, fun m hm hfm hnem => ?_⟩
    rcases hc m hm hfm hnem with h1 | h1 | h1
    · exact Or.inl h1
    · rcases Relation.ReflTransGen.cases_head h1 with h2 | ⟨c, hcc, _⟩
      · subst h2
        rcases hskip with h3 | ⟨h3, h4⟩
        · exact absurd h3 hfm
        · rcases hnem with h5 | h5
          · exact absurd h3 h5
          · exact absurd h4 h5
      · exfalso
        rcases hskip with h3 | ⟨h3, _⟩
        · exact hcc.1 h3
        · have := hcc.2; rw [h3] at this; simp at this
    · exact Or.inr h1
  · rw [he]
    refine ⟨?_, ?_, ?_⟩
    · intro m hm
      simp only [mem_mapKeys_mapSet] at hm
      rcases hm with rfl | hm
      · exact hcur
      · exact hk m hm
    · intro q hq1
      simp only [List.mem_append] at hq1
      rcases hq1 with hq1 | hq1
      · exact hq q hq1
      · exact Relation.ReflTransGen.tail hcur ⟨hf, hq1⟩
    · intro m hm hfm hnem
      simp only [mem_mapKeys_mapSet, List.mem_append]
      rcases hc m hm hfm hnem with h1 | h1 | ⟨q, hq1, hq2⟩
      · exact Or.inl (Or.inr h1)
      · rcases Relation.ReflTransGen.cases_head h1 with h2 | ⟨c, hcc, hcm⟩
        · exact Or.inl (Or.inl h2.symm)
        · exact Or.inr ⟨c, Or.inr hcc.2, hcm⟩
      · exact Or.inr ⟨q, Or.inl hq1, hq2⟩

theorem covers_result (T : ProjectTree) (root : Str) (fuel : Nat)
    (res : GoMap (List Str) × GoMap (List Str)) (hres : Analyze T root 0 fuel = some res) :
    (∀ m ∈ mapKeys res.1, Relation.ReflTransGen (DeclaredEdge T) root m) ∧
    ∀ m, IsRefKey T root m → m ∈ mapKeys res.1 := by
  unfold Analyze at hres
  obtain ⟨st1, ⟨hk, _, hc⟩, hq, rfl⟩ := analyzeLoop_invariant T 0 (Covers T root)
    (fun cur st h => covers_visit T root cur st h) fuel _ res
    ⟨by simp [mapKeys], by simp [Relation.ReflTransGen.refl],
      fun m hm _ _ => Or.inr ⟨root, by simp, hm⟩⟩ hres
  refine ⟨hk, fun m hm => ?_⟩
  rcases hc m hm.1 hm.2.1 hm.2.2 with h | ⟨q, hq1, _⟩
  · exact h
  · rw [hq] at hq1; simp at hq1

theorem acyclic_of_rank (T : ProjectTree) (rank : Str → Nat)
    (hrank : ∀ u v, DeclaredEdge T u v → rank v < rank u) (m : Str) :
    ¬ Relation.TransGen (DeclaredEdge T) m m := by
  have hlt : ∀ a b, Relation.TransGen (DeclaredEdge T) a b → rank b < rank a := by
    intro a b hab
    induction hab with
    | single h => exact hrank _ _ h
    | tail _ h ih => exact lt_trans (hrank _ _ h) ih
  intro h
  exact lt_irrefl _ (hlt m m h)

set_option maxRecDepth 100000 in
theorem sampleTree_acyclic (m : Str) : ¬ Relation.TransGen (DeclaredEdge sampleTree) m m := by
  apply acyclic_of_rank sampleTree sampleRank
  rintro u v ⟨hf, hv⟩
  obtain ⟨c, hc⟩ := lookupFile_isSome_mem _ _ (findBuildFile_isSome sampleTree u hf)
  unfold scanOf at hv
  have hp : findBuildFile sampleTree u = "app/build.gradle.kts".toList ∨
      findBuildFile sampleTree u = "a/build.gradle.kts".toList ∨
      findBuildFile sampleTree u = "b/build.gradle.kts".toList ∨
      findBuildFile sampleTree u = "c/build.gradle.kts".toList := by
    simp only [sampleTree, List.mem_cons, Prod.mk.injEq, List.mem_singleton, List.not_mem_nil,
      or_false] at hc
    rcases hc with h | h | h | h
    · exact Or.inl h.1
    · exact Or.inr (Or.inl h.1)
    · exact Or.inr (Or.inr (Or.inl h.1))
    · exact Or.inr (Or.inr (Or.inr h.1))
  rcases hp with h | h | h | h
  · rw [h] at hv
    have e : (parseDependencies sampleTree "app/build.gradle.kts".toList).1 =
        [":a".toList, ":b".toList] := by decide
    rw [e] at hv
    have hu : sampleRank u = 2 := by simp [sampleRank, h]
    rw [hu]
    simp only [List.mem_cons, List.mem_singleton, List.not_mem_nil, or_false] at hv
    rcases hv with rfl | rfl <;> decide
  · rw [h] at hv
    have e : (parseDependencies sampleTree "a/build.gradle.kts".toList).1 =
        [":c".toList] := by decide
    rw [e] at hv
    have hu : sampleRank u = 1 := by
      unfold sampleRank; rw [h]; decide
    rw [hu]
    simp only [List.mem_cons, List.mem_singleton, List.not_mem_nil, or_false] at hv
    rcases hv with rfl; decide
  · rw [h] at hv
    have e : (parseDependencies sampleTree "b/build.gradle.kts".toList).1 =
        [":d".toList] := by decide
    rw [e] at hv
    have hu : sampleRank u = 1 := by
      unfold sampleRank; rw [h]; decide
    rw [hu]
    simp only [List.mem_cons, List.mem_singleton, List.not_mem_nil, or_false] at hv
    rcases hv with rfl; decide
  · rw [h] at hv
    have e : (parseDependencies sampleTree "c/build.gradle.kts".toList).1 = [] := by decide
    rw [e] at hv
    simp at hv

/-- C1: on a finite project tree whose declared project-dependency graph has
no cycle, `Analyze(root, 0)` returns (every sufficiently large fuel gives the
same result), the keys of both mappings are exactly the modules reachable from
the root through declared edges whose own descriptor exists and declares at
least one dependency, and each key is mapped in both mappings to the scanner's
output for its descriptor. -/
theorem C1_analyze_acyclic_exact (T : ProjectTree) (root : Str)
    (hacyc : ∀ m, ¬ Relation.TransGen (DeclaredEdge T) m m) :
    ∃ fuel res, (∀ fuel1, fuel ≤ fuel1 → Analyze T root 0 fuel1 = some res) ∧
      (∀ m, m ∈ mapKeys res.1 ↔ IsRefKey T root m) ∧
      (∀ m, m ∈ mapKeys res.2 ↔ IsRefKey T root m) ∧
      (∀ m, IsRefKey T root m →
        mapGet res.1 m = some (scanOf T m).1 ∧ mapGet res.2 m = some (scanOf T m).2) := by
  obtain ⟨W, hW⟩ := weight_exists T hacyc
  obtain ⟨res, hres⟩ := analyzeLoop_terminates T W hW (W root)
    { projectDeps := [], libDeps := [], queue := [root],
      depth := Function.update (fun _ => 0) root 0 } (by simp)
  have hA : Analyze T root 0 (W root) = some res := hres
  obtain ⟨hkeys, hrec⟩ := recorded_result T root 0 (W root) res hA
  obtain ⟨hreach, hcov⟩ := covers_result T root (W root) res hA
  have hiff : ∀ m, m ∈ mapKeys res.1 ↔ IsRefKey T root m := fun m =>
    ⟨fun hm => ⟨hreach m hm, (hrec m hm).1, (hrec m hm).2.2.2⟩, hcov m⟩
  refine ⟨W root, res, fun fuel1 hle => analyzeLoop_mono T 0 _ _ res hres fuel1 hle, hiff,
    fun m => by rw [← hkeys]; exact hiff m, fun m hm => ?_⟩
  obtain ⟨_, h1, h2, _⟩ := hrec m (hcov m hm)
  exact ⟨h1, h2⟩

set_option maxRecDepth 100000 in
/-- C1 on the sample tree, which has no cycle: the run from `:app` returns
the three modules with dependencies and their scanned lists. -/
theorem C1_analyze_acyclic_exact_witness :
    (∀ m, ¬ Relation.TransGen (DeclaredEdge sampleTree) m m) ∧
    Analyze sampleTree ":app".toList 0 5 = some sampleResult ∧
    ∃ fuel res, (∀ fuel1, fuel ≤ fuel1 → Analyze sampleTree ":app".toList 0 fuel1 = some res) ∧
      (∀ m, m ∈ mapKeys res.1 ↔ IsRefKey sampleTree ":app".toList m) ∧
      (∀ m, m ∈ mapKeys res.2 ↔ IsRefKey sampleTree ":app".toList m) ∧
      (∀ m, IsRefKey sampleTree ":app".toList m →
        mapGet res.1 m = some (scanOf sampleTree m).1 ∧
        mapGet res.2 m = some (scanOf sampleTree m).2) :=
  ⟨sampleTree_acyclic, by decide,
    C1_analyze_acyclic_exact sampleTree ":app".toList sampleTree_acyclic⟩

/-- C2: with a positive `maxDepth`, every key of either returned mapping is
reached from the root by a chain of fewer than `maxDepth` declared
project-dependency edges; for `maxDepth = 1` the only possible key is the
root. -/
theorem C2_depth_bounded (T : ProjectTree) (root : Str) (maxDepth : Int) (fuel : Nat)
    (res : GoMap (List Str) × GoMap (List Str)) (hpos : 0 < maxDepth)
    (hres : Analyze T root maxDepth fuel = some res) :
    (∀ m, m ∈ mapKeys res.1 ∨ m ∈ mapKeys res.2 →
      ∃ n : Nat, (n : Int) < maxDepth ∧ Walk T n root m) ∧
    (maxDepth = 1 → ∀ m, m ∈ mapKeys res.1 ∨ m ∈ mapKeys res.2 → m = root) := by
  have hkeys := (recorded_result T root maxDepth fuel res hres).1
  have hall : ∀ m, m ∈ mapKeys res.1 ∨ m ∈ mapKeys res.2 →
      ∃ n : Nat, (n : Int) < maxDepth ∧ Walk T n root m := by
    unfold Analyze at hres
    obtain ⟨st1, ⟨_, hk⟩, _, rfl⟩ := analyzeLoop_invariant T maxDepth
      (DepthBounded T root maxDepth)
      (fun cur st h => depthBounded_visit T root maxDepth hpos cur st h) fuel _ res
      ⟨by
        intro q hq
        have : q = root := by simpa using hq
        subst this
        exact ⟨0, by simp, Walk.refl _⟩, by simp [mapKeys]⟩ hres
    intro m hm
    apply hk m
    rcases hm with hm | hm
    · exact hm
    · simp only at hkeys hm ⊢; rw [hkeys]; exact hm
  refine ⟨hall, fun h1 m hm => ?_⟩
  obtain ⟨n, hn, hw⟩ := hall m hm
  have : n = 0 := by omega
  subst this
  exact walk_zero T root m hw

set_option maxRecDepth 100000 in
/-- C2 on the sample tree with `maxDepth = 1`: `:a` and `:b` declare further
dependencies, yet the result has the key `:app` only. -/
theorem C2_depth_bounded_witness :
    Analyze sampleTree ":app".toList 1 3 =
      some ([(":app".toList, [":a".toList, ":b".toList])], [(":app".toList, [])]) ∧
    (∀ m, m ∈ mapKeys [(":app".toList, [":a".toList, ":b".toList])] ∨
        m ∈ mapKeys [(":app".toList, ([] : List Str))] →
      ∃ n : Nat, (n : Int) < 1 ∧ Walk sampleTree n ":app".toList m) ∧
    ((1 : Int) = 1 → ∀ m, m ∈ mapKeys [(":app".toList, [":a".toList, ":b".toList])] ∨
        m ∈ mapKeys [(":app".toList, ([] : List Str))] → m = ":app".toList) :=
  ⟨by decide,
    C2_depth_bounded sampleTree ":app".toList 1 3
      ([(":app".toList, [":a".toList, ":b".toList])], [(":app".toList, [])])
      (by decide) (by decide)⟩

/-- C3: whenever `Analyze` returns, a module is a key of the
project-dependency mapping if and only if it is a key of the
library-dependency mapping. -/
theorem C3_same_key_domain (T : ProjectTree) (root : Str) (maxDepth : Int) (fuel : Nat)
    (res : GoMap (List Str) × GoMap (List Str))
    (hres : Analyze T root maxDepth fuel = some res) :
    ∀ m, ((mapGet res.1 m).isSome = true ↔ (mapGet res.2 m).isSome = true) ∧
      (m ∈ mapKeys res.1 ↔ m ∈ mapKeys res.2) := by
  intro m
  have hkeys := (recorded_result T root maxDepth fuel res hres).1
  rw [mapGet_isSome_iff, mapGet_isSome_iff, hkeys]
  exact ⟨Iff.rfl, Iff.rfl⟩

set_option maxRecDepth 100000 in
/-- C3 on the sample tree with `maxDepth = 2`. -/
theorem C3_same_key_domain_witness :
    Analyze sampleTree ":app".toList 2 10 = some sampleResult ∧
    ∀ m, ((mapGet sampleResult.1 m).isSome = true ↔ (mapGet sampleResult.2 m).isSome = true) ∧
      (m ∈ mapKeys sampleResult.1 ↔ m ∈ mapKeys sampleResult.2) :=
  ⟨by decide, C3_same_key_domain sampleTree ":app".toList 2 10 sampleResult (by decide)⟩

/-- C4: whenever `Analyze` returns, every key has an entry in both mappings
and the two lists are not both empty; a module whose descriptor scans to two
empty lists is not a key of either mapping. -/
theorem C4_no_empty_entry (T : ProjectTree) (root : Str) (maxDepth : Int) (fuel : Nat)
    (res : GoMap (List Str) × GoMap (List Str))
    (hres : Analyze T root maxDepth fuel = some res) :
    (∀ m, m ∈ mapKeys res.1 ∨ m ∈ mapKeys res.2 →
      ∃ p l, mapGet res.1 m = some p ∧ mapGet res.2 m = some l ∧ (p ≠ [] ∨ l ≠ [])) ∧
    (∀ m, (scanOf T m).1 = [] → (scanOf T m).2 = [] →
      m ∉ mapKeys res.1 ∧ m ∉ mapKeys res.2) := by
  obtain ⟨hkeys, hrec⟩ := recorded_result T root maxDepth fuel res hres
  refine ⟨fun m hm => ?_, fun m h1 h2 => ?_⟩
  · have hm1 : m ∈ mapKeys res.1 := by
      rcases hm with hm | hm
      · exact hm
      · rw [hkeys]; exact hm
    obtain ⟨_, ha, hb, hc⟩ := hrec m hm1
    exact ⟨_, _, ha, hb, hc⟩
  · have hno : m ∉ mapKeys res.1 := by
      intro hm
      obtain ⟨_, _, _, hc⟩ := hrec m hm
      rcases hc with hc | hc
      · exact hc h1
      · exact hc h2
    exact ⟨hno, by rw [← hkeys]; exact hno⟩

set_option maxRecDepth 100000 in
/-- C4 on the sample tree: `:c` is scanned, declares nothing, and is not a
key. -/
theorem C4_no_empty_entry_witness :
    Analyze sampleTree ":app".toList 0 5 = some sampleResult ∧
    scanOf sampleTree ":c".toList = ([], []) ∧
    (∀ m, m ∈ mapKeys sampleResult.1 ∨ m ∈ mapKeys sampleResult.2 →
      ∃ p l, mapGet sampleResult.1 m = some p ∧ mapGet sampleResult.2 m = some l ∧
        (p ≠ [] ∨ l ≠ [])) ∧
    (∀ m, (scanOf sampleTree m).1 = [] → (scanOf sampleTree m).2 = [] →
      m ∉ mapKeys sampleResult.1 ∧ m ∉ mapKeys sampleResult.2) :=
  ⟨by decide, by decide, C4_no_empty_entry sampleTree ":app".toList 0 5 sampleResult (by decide)⟩

set_option maxRecDepth 100000 in
/-- C5 at the failing input: on the graph `Analyze` returns for
`collisionTree`, duplicated-tree mode emits two edge statements with target
`:c_1`, one to the module `:c_1` and one to the first clone of `:c`; on the
diamond of the claim the identifiers `C` and `C_1` are both labelled `C` and
each is the target of one edge. -/
theorem C5_clone_identifier_collides :
    Analyze collisionTree ":app".toList 0 7 = some (collisionGraph, collisionLibs) ∧
    (∃ stmts, createDotContent collisionGraph collisionLibs ":app".toList "LR".toList true 7
        = some stmts ∧
      edgeStmt Kind.project ":app".toList ":c_1".toList ∈ stmts ∧
      edgeStmt Kind.project ":b".toList ":c_1".toList ∈ stmts ∧
      inDegree stmts ":c_1".toList = 2) ∧
    (∃ stmts, createDotContent diamondGraph [] "root".toList "LR".toList true 7 = some stmts ∧
      labelsOf stmts "C".toList = ["C".toList] ∧ labelsOf stmts "C_1".toList = ["C".toList] ∧
      inDegree stmts "C".toList = 1 ∧ inDegree stmts "C_1".toList = 1) := by
  refine ⟨by decide, ⟨_, rfl, ?_, ?_, ?_⟩, ⟨_, rfl, ?_, ?_, ?_, ?_⟩⟩ <;> decide

theorem sharedDeps_eq (k : Kind) (module : Str) (deps : List Str) (dot : List Stmt) :
    sharedDeps k module deps dot = dot ++ deps.flatMap (fun d =>
      [Stmt.node d k.colors.fill d k.colors.text,
       Stmt.edge module d (decide (k = Kind.library)) k.colors.edge]) := by
  induction deps generalizing dot with
  | nil => simp [sharedDeps]
  | cons d deps ih =>
    simp [sharedDeps, ih, nodeStmt, edgeStmt, List.flatMap_cons]

theorem sharedMap_eq (k : Kind) (m : GoMap (List Str)) (dot : List Stmt) :
    sharedMap k m dot = dot ++ sharedPairs k m := by
  induction m generalizing dot with
  | nil => simp [sharedMap, sharedPairs]
  | cons e m ih =>
    obtain ⟨module, deps⟩ := e
    simp only [sharedMap, ih, sharedDeps_eq, sharedPairs, List.flatMap_cons, List.append_assoc]

theorem length_sharedPairs (k : Kind) (m : GoMap (List Str)) :
    (sharedPairs k m).length = 2 * occurrences m := by
  induction m with
  | nil => simp [sharedPairs, occurrences]
  | cons e m ih =>
    have hinner : ∀ (deps : List Str), (deps.flatMap (fun d =>
        [Stmt.node d k.colors.fill d k.colors.text,
         Stmt.edge e.1 d (decide (k = Kind.library)) k.colors.edge])).length
        = 2 * deps.length := by
      intro deps
      induction deps with
      | nil => simp
      | cons d deps ih2 => simp only [List.flatMap_cons, List.length_append, ih2]; simp; omega
    simp only [sharedPairs, occurrences] at ih ⊢
    simp only [List.flatMap_cons, List.length_append, hinner, ih, List.map_cons, List.sum_cons]
    omega

set_option maxRecDepth 100000 in
/-- C6: in shared mode the diagram is the four graph-attribute statements,
the root declaration, then one (node declaration, edge) pair per dependency
occurrence of the project mapping in project style with a solid edge, then
one pair per occurrence of the library mapping in library style with a dashed
edge, each under the dependency's own identifier, then the closing brace; it
has `6 + 2 * occurrences` statements, and on the diamond the identifier `C`
is the target of two edges. -/
theorem C6_shared_mode_statements (projectDeps libDeps : GoMap (List Str))
    (rootModule direction : Str) (fuel : Nat) :
    (∃ stmts, createDotContent projectDeps libDeps rootModule direction false fuel = some stmts ∧
      stmts = header direction ++ [rootStmt rootModule] ++ sharedPairs Kind.project projectDeps ++
        sharedPairs Kind.library libDeps ++ [Stmt.text "\x7d".toList] ∧
      (header direction).length = 4 ∧
      stmts.length = 6 + 2 * (occurrences projectDeps + occurrences libDeps)) ∧
    (∃ stmts, createDotContent diamondGraph [] "root".toList "LR".toList false 0 = some stmts ∧
      inDegree stmts "C".toList = 2 ∧ labelsOf stmts "C_1".toList = [] ∧
      stmts.map Stmt.render =
        ["digraph Dependencies \x7b".toList, "  rankdir=LR;".toList,
         "  node [shape=box, style=filled, width=2, height=0.5, fontname=\"Arial\"];".toList,
         "  edge [penwidth=1.5, fontname=\"Arial\"];".toList,
         "  \"root\" [fillcolor=\"#4CAF50\", label=\"root\", fontcolor=\"white\"];".toList,
         "  \"A\" [fillcolor=\"#81C784\", label=\"A\", fontcolor=\"black\"];".toList,
         "  \"root\" -> \"A\" [color=\"#2E7D32\"];".toList,
         "  \"B\" [fillcolor=\"#81C784\", label=\"B\", fontcolor=\"black\"];".toList,
         "  \"root\" -> \"B\" [color=\"#2E7D32\"];".toList,
         "  \"C\" [fillcolor=\"#81C784\", label=\"C\", fontcolor=\"black\"];".toList,
         "  \"A\" -> \"C\" [color=\"#2E7D32\"];".toList,
         "  \"C\" [fillcolor=\"#81C784\", label=\"C\", fontcolor=\"black\"];".toList,
         "  \"B\" -> \"C\" [color=\"#2E7D32\"];".toList,
         "\x7d".toList]) := by
  refine ⟨⟨_, rfl, ?_, rfl, ?_⟩, ⟨_, rfl, ?_, ?_, ?_⟩⟩
  · simp only [Bool.false_eq_true, if_false, sharedMap_eq, List.append_assoc]
  · simp only [Bool.false_eq_true, if_false, sharedMap_eq, List.length_append,
      length_sharedPairs, header, List.length_cons, List.length_nil]
    omega
  · decide
  · decide
  · decide

/-! ## Facts about the string functions -/

theorem stringsIndex_of_prefix (s sub : Str) (h : sub.isPrefixOf s = true) :
    stringsIndex s sub = some 0 := by
  cases s <;> simp [stringsIndex, h]

theorem stringsIndex_none_of_not_mem (s sub : Str) (c : Char) (hc : c ∈ sub) (hs : c ∉ s) :
    stringsIndex s sub = none := by
  induction s with
  | nil =>
    have : sub.isPrefixOf [] = false := by
      cases sub with
      | nil => simp at hc
      | cons a t => rfl
    simp [stringsIndex, this]
  | cons a s ih =>
    have hp : sub.isPrefixOf (a :: s) = false := by
      by_contra hcon
      have hpre : sub <+: a :: s := List.isPrefixOf_iff_prefix.mp (by simpa using hcon)
      exact hs (hpre.subset hc)
    simp [stringsIndex, hp, ih (fun h => hs (List.mem_cons_of_mem _ h))]

theorem stringsContains_single (s : Str) (c : Char) :
    stringsContains s [c] = true ↔ c ∈ s := by
  unfold stringsContains
  induction s with
  | nil => simp [stringsIndex, List.isPrefixOf]
  | cons a s ih =>
    by_cases h : c = a
    · subst h; simp [stringsIndex, List.isPrefixOf]
    · have h2 : (c == a) = false := by simpa using h
      simp only [stringsIndex, List.isPrefixOf, h2, Bool.false_and, Bool.false_eq_true,
        if_false, Option.isSome_map', List.mem_cons, h, false_or]
      exact ih

theorem stringsIndex_single (a b : Str) (c : Char) (h : c ∉ a) :
    stringsIndex (a ++ c :: b) [c] = some a.length := by
  induction a with
  | nil => simp [stringsIndex, List.isPrefixOf]
  | cons x a ih =>
    have hx : (c == x) = false := by
      have : c ≠ x := fun e => h (e ▸ List.mem_cons_self _ _)
      simpa using this
    simp [stringsIndex, List.isPrefixOf, hx, ih (fun hm => h (List.mem_cons_of_mem _ hm))]

theorem dropWhile_all (p : Char → Bool) (ws rest : Str) (h : ∀ c ∈ ws, p c = true) :
    (ws ++ rest).dropWhile p = rest.dropWhile p := by
  induction ws with
  | nil => rfl
  | cons a ws ih =>
    simp [List.dropWhile, h a (List.mem_cons_self _ _),
      ih (fun c hc => h c (List.mem_cons_of_mem _ hc))]

/-- Trimming removes white space around a text that neither starts nor ends
with white space. -/
theorem trimSpace_padded (ws1 ws2 : Str) (first last : Char) (mid : Str)
    (h1 : ∀ c ∈ ws1, isSpace c = true) (h2 : ∀ c ∈ ws2, isSpace c = true)
    (hf : isSpace first = false) (hl : isSpace last = false) :
    trimSpace (ws1 ++ (first :: mid ++ [last]) ++ ws2) = first :: mid ++ [last] := by
  unfold trimSpace
  rw [List.append_assoc, dropWhile_all isSpace ws1 _ h1]
  have e1 : ((first :: mid ++ [last]) ++ ws2).dropWhile isSpace
      = (first :: mid ++ [last]) ++ ws2 := by
    simp [List.dropWhile, hf]
  rw [e1, List.reverse_append, dropWhile_all isSpace ws2.reverse _
    (fun c hc => h2 c (List.mem_reverse.mp hc))]
  have e2 : (first :: mid ++ [last]).reverse = last :: (first :: mid).reverse := by simp
  rw [e2]
  simp [List.dropWhile, hl]

theorem not_mem_joined (segs : List Str) (c : Char) (hc : c.isAlphanum = false) (hdot : c ≠ '.')
    (halnum : ∀ seg ∈ segs, ∀ x ∈ seg, x.isAlphanum = true) :
    c ∉ stringsJoin segs ".".toList := by
  unfold stringsJoin
  induction segs with
  | nil => simp [List.intercalate]
  | cons s rest ih =>
    have hs : c ∉ s := fun h => by
      have := halnum s (List.mem_cons_self _ _) c h
      rw [hc] at this; exact absurd this (by simp)
    have hrest := ih (fun seg hseg => halnum seg (List.mem_cons_of_mem _ hseg))
    cases rest with
    | nil => simpa [List.intercalate] using hs
    | cons t rest2 =>
      intro hmem
      have e : List.intercalate ".".toList (s :: t :: rest2) =
          s ++ '.' :: List.intercalate ".".toList (t :: rest2) := by
        simp [List.intercalate, List.intersperse]
      rw [e] at hmem
      simp only [List.mem_append, List.mem_cons] at hmem
      rcases hmem with h | h | h
      · exact hs h
      · exact hdot h
      · exact hrest h

theorem split_dot_joined (segs : List Str) (hne : segs ≠ [])
    (halnum : ∀ seg ∈ segs, ∀ x ∈ seg, x.isAlphanum = true) :
    stringsSplit ('.' :: stringsJoin segs ".".toList) '.' = [] :: segs := by
  unfold stringsSplit stringsJoin
  have e : '.' :: List.intercalate ".".toList segs = List.intercalate ['.'] ([] :: segs) := by
    cases segs with
    | nil => exact absurd rfl hne
    | cons s rest => simp [List.intercalate, List.intersperse]
  rw [e]
  apply List.splitOn_intercalate
  · intro l hl
    rcases List.mem_cons.mp hl with h | h
    · subst h; simp
    · intro hmem
      have := halnum l h '.' hmem
      simp [Char.isAlphanum, Char.isAlpha, Char.isUpper, Char.isLower, Char.isDigit] at this
  · simp

theorem dotToModule_projects (segs : List Str) (hne : segs ≠ [])
    (halnum : ∀ seg ∈ segs, ∀ x ∈ seg, x.isAlphanum = true) :
    dotToModule ("projects.".toList ++ stringsJoin segs ".".toList) =
      ":".toList ++ stringsJoin (segs.map toKebabCase) ":".toList := by
  unfold dotToModule
  have hp : hasPrefix ("projects.".toList ++ stringsJoin segs ".".toList) "projects.".toList
      = true := by
    simp [hasPrefix, List.isPrefixOf]
  have hd : ("projects.".toList ++ stringsJoin segs ".".toList).drop 8 =
      '.' :: stringsJoin segs ".".toList := by
    simp
  simp only [hp, if_true, hd, split_dot_joined segs hne halnum, List.map_cons]
  have hk : toKebabCase [] = [] := rfl
  rw [hk]
  cases segs with
  | nil => exact absurd rfl hne
  | cons s rest =>
    have e : stringsJoin ([] :: List.map toKebabCase (s :: rest)) ":".toList =
        ':' :: stringsJoin (List.map toKebabCase (s :: rest)) ":".toList := by
      simp [stringsJoin, List.intercalate, List.intersperse]
    rw [e]
    simp [hasPrefix, List.isPrefixOf]

theorem parseProjectDependency_of (line pre body : Str)
    (hline : line = pre ++ ("projects.".toList ++ body ++ [')']))
    (hidx : stringsIndex line "projects.".toList = some pre.length)
    (hkw : stringsContains line "implementation(projects.".toList = true ∨
      stringsContains line "api(projects.".toList = true ∨
      stringsContains line "compileOnly(projects.".toList = true)
    (hclose : ')' ∉ body) :
    parseProjectDependency line = dotToModule ("projects.".toList ++ body) := by
  have hclose2 : ')' ∉ "projects.".toList ++ body := by
    intro h
    rcases List.mem_append.mp h with h | h
    · revert h; decide
    · exact hclose h
  have hc : stringsContains line "projects.".toList = true := by
    unfold stringsContains; rw [hidx]; rfl
  have hkw2 : (!stringsContains line "implementation(projects.".toList &&
      !stringsContains line "api(projects.".toList &&
      !stringsContains line "compileOnly(projects.".toList) = false := by
    rcases hkw with h | h | h <;> rw [h] <;> simp
  have hdrop : line.drop pre.length = "projects.".toList ++ body ++ [')'] := by
    rw [hline, List.drop_left']; rfl
  have hidx2 : stringsIndex ("projects.".toList ++ body ++ [')']) ")".toList =
      some ("projects.".toList ++ body).length := by
    have := stringsIndex_single ("projects.".toList ++ body) [] ')' hclose2
    simpa using this
  have htake : List.take ("projects.".toList ++ body).length
      ("projects.".toList ++ body ++ [')']) = "projects.".toList ++ body := by
    rw [List.take_left']; rfl
  unfold parseProjectDependency
  simp only [hc, hkw2, Bool.not_true, Bool.false_eq_true, if_false, hidx, hdrop, hidx2, htake]

theorem parseProjectDependency_keyword (k : Str) (hk : k ∈ declKeywords) (body : Str)
    (hclose : ')' ∉ body) :
    parseProjectDependency (k ++ "(projects.".toList ++ body ++ ")".toList) =
      dotToModule ("projects.".toList ++ body) := by
  simp only [declKeywords, List.mem_cons, List.mem_singleton, List.not_mem_nil, or_false] at hk
  rcases hk with rfl | rfl | rfl
  · apply parseProjectDependency_of _ "implementation(".toList body (by simp) _ _ hclose
    · simp [stringsIndex, List.isPrefixOf]
    · left; simp [stringsContains, stringsIndex, List.isPrefixOf]
  · apply parseProjectDependency_of _ "api(".toList body (by simp) _ _ hclose
    · simp [stringsIndex, List.isPrefixOf]
    · right; left; simp [stringsContains, stringsIndex, List.isPrefixOf]
  · apply parseProjectDependency_of _ "compileOnly(".toList body (by simp) _ _ hclose
    · simp [stringsIndex, List.isPrefixOf]
    · right; right; simp [stringsContains, stringsIndex, List.isPrefixOf]

theorem parseProjectDependency_decl (k : Str) (hk : k ∈ declKeywords) (segs : List Str)
    (hne : segs ≠ []) (halnum : ∀ seg ∈ segs, ∀ x ∈ seg, x.isAlphanum = true) :
    parseProjectDependency (projectDecl k segs) =
      ":".toList ++ stringsJoin (segs.map toKebabCase) ":".toList := by
  unfold projectDecl
  rw [parseProjectDependency_keyword k hk _
    (not_mem_joined segs ')' (by decide) (by decide) halnum)]
  exact dotToModule_projects segs hne halnum

/-- Every character of a project declaration line is a letter, a digit, a
dot or a parenthesis. -/
theorem projectDecl_chars (k : Str) (hk : k ∈ declKeywords) (segs : List Str)
    (halnum : ∀ seg ∈ segs, ∀ x ∈ seg, x.isAlphanum = true) (c : Char)
    (hc : c.isAlphanum = false) (h1 : c ≠ '.') (h2 : c ≠ '(') (h3 : c ≠ ')') :
    c ∉ projectDecl k segs := by
  unfold projectDecl
  intro hmem
  simp only [List.mem_append] at hmem
  rcases hmem with ((h | h) | h) | h
  · simp only [declKeywords, List.mem_cons, List.mem_singleton, List.not_mem_nil, or_false] at hk
    have hall : ∀ x ∈ k, x.isAlphanum = true := by
      rcases hk with rfl | rfl | rfl <;> decide
    have := hall c h
    rw [hc] at this; exact absurd this (by simp)
  · have hall : ∀ x ∈ "(projects.".toList, x.isAlphanum = true ∨ x = '.' ∨ x = '(' := by decide
    rcases hall c h with h4 | h4 | h4
    · rw [hc] at h4; exact absurd h4 (by simp)
    · exact h1 h4
    · exact h2 h4
  · exact not_mem_joined segs c hc h1 halnum h
  · have : c = ')' := by simpa using h
    exact h3 this

theorem projectDecl_shape (k : Str) (hk : k ∈ declKeywords) (segs : List Str) :
    ∃ first mid, projectDecl k segs = first :: mid ++ [')'] ∧ isSpace first = false := by
  simp only [declKeywords, List.mem_cons, List.mem_singleton, List.not_mem_nil, or_false] at hk
  rcases hk with rfl | rfl | rfl
  · exact ⟨'i', "mplementation(projects.".toList ++ stringsJoin segs ".".toList,
      by simp [projectDecl], by decide⟩
  · exact ⟨'a', "pi(projects.".toList ++ stringsJoin segs ".".toList,
      by simp [projectDecl], by decide⟩
  · exact ⟨'c', "ompileOnly(projects.".toList ++ stringsJoin segs ".".toList,
      by simp [projectDecl], by decide⟩

/-- C7: a line made of white space, one of the three keywords, `(projects.`,
a non-empty sequence of segments of ASCII letters and digits joined by dots,
`)` and white space, scanned inside a dependency block, yields exactly one
project dependency: `:` followed by the kebab-cased segments joined by `:`;
the scanner stays inside the block. -/
theorem C7_project_declaration_yield (k : Str) (segs : List Str) (ws1 ws2 : Str)
    (st : ScanState) (hk : k ∈ declKeywords) (hne : segs ≠ [])
    (halnum : ∀ seg ∈ segs, ∀ x ∈ seg, x.isAlphanum = true)
    (hws1 : ∀ c ∈ ws1, isSpace c = true) (hws2 : ∀ c ∈ ws2, isSpace c = true)
    (hin : st.inDepsBlock = true) :
    parseProjectDependency (trimSpace (ws1 ++ projectDecl k segs ++ ws2)) =
      ":".toList ++ stringsJoin (segs.map toKebabCase) ":".toList ∧
    (scanLine st (ws1 ++ projectDecl k segs ++ ws2)).projectDeps =
      st.projectDeps ++ [":".toList ++ stringsJoin (segs.map toKebabCase) ":".toList] ∧
    (scanLine st (ws1 ++ projectDecl k segs ++ ws2)).inDepsBlock = true ∧
    (scanLine st (ws1 ++ projectDecl k segs ++ ws2)).braceCount = st.braceCount := by
  obtain ⟨first, mid, hshape, hfirst⟩ := projectDecl_shape k hk segs
  have htrim : trimSpace (ws1 ++ projectDecl k segs ++ ws2) = projectDecl k segs := by
    rw [hshape]
    exact trimSpace_padded ws1 ws2 first ')' mid hws1 hws2 hfirst (by decide)
  have hparse := parseProjectDependency_decl k hk segs hne halnum
  have hnot : ∀ c : Char, c.isAlphanum = false → c ≠ '.' → c ≠ '(' → c ≠ ')' →
      c ∉ projectDecl k segs := fun c => projectDecl_chars k hk segs halnum c
  have hopener : stringsContains (projectDecl k segs) "dependencies \x7b".toList = false := by
    unfold stringsContains
    rw [stringsIndex_none_of_not_mem _ _ ' ' (by decide)
      (hnot ' ' (by decide) (by decide) (by decide) (by decide))]
    rfl
  have hopen : stringsContains (projectDecl k segs) "\x7b".toList = false := by
    unfold stringsContains
    rw [stringsIndex_none_of_not_mem _ _ '\x7b' (by decide)
      (hnot '\x7b' (by decide) (by decide) (by decide) (by decide))]
    rfl
  have hclose : stringsContains (projectDecl k segs) "\x7d".toList = false := by
    unfold stringsContains
    rw [stringsIndex_none_of_not_mem _ _ '\x7d' (by decide)
      (hnot '\x7d' (by decide) (by decide) (by decide) (by decide))]
    rfl
  have hmod : ":".toList ++ stringsJoin (segs.map toKebabCase) ":".toList ≠ [] := by simp
  refine ⟨by rw [htrim, hparse], ?_, ?_, ?_⟩ <;>
    simp only [scanLine, htrim, hopener, hopen, hclose, hin, hparse, hmod, Bool.false_eq_true,
      if_false, Bool.not_true, ne_eq, not_false_eq_true, if_true, Bool.false_and]

set_option maxRecDepth 100000 in
/-- C7 on the line of the specification:
`    implementation(projects.account.accountDomain)` inside a block yields
`:account:account-domain`. -/
theorem C7_project_declaration_yield_witness :
    ("    ".toList ++ projectDecl "implementation".toList
        ["account".toList, "accountDomain".toList] ++ [] =
      "    implementation(projects.account.accountDomain)".toList) ∧
    (":".toList ++ stringsJoin (["account".toList, "accountDomain".toList].map toKebabCase)
      ":".toList = ":account:account-domain".toList) ∧
    (scanLine (scanLine ScanState.init "dependencies \x7b".toList)
      ("    ".toList ++ projectDecl "implementation".toList
        ["account".toList, "accountDomain".toList] ++ [])).projectDeps =
      [] ++ [":".toList ++ stringsJoin (["account".toList, "accountDomain".toList].map
        toKebabCase) ":".toList] :=
  ⟨by decide, by decide,
    (C7_project_declaration_yield "implementation".toList
      ["account".toList, "accountDomain".toList] "    ".toList []
      (scanLine ScanState.init "dependencies \x7b".toList)
      (by decide) (by decide) (by decide) (by decide) (by decide) (by decide)).2.1⟩

theorem stringsIndex_concat_none (n sub : Str) (c : Char) (hc : c ∉ sub) (hsub : sub ≠ [])
    (h : stringsIndex n sub = none) : stringsIndex (n ++ [c]) sub = none := by
  induction n with
  | nil =>
    cases sub with
    | nil => exact absurd rfl hsub
    | cons d sub1 =>
      have hd : (d == c) = false := by
        have : d ≠ c := fun e => hc (e ▸ List.mem_cons_self _ _)
        simpa using this
      simp [stringsIndex, List.isPrefixOf, hd]
  | cons a n ih =>
    simp only [stringsIndex] at h
    split at h
    · simp at h
    · rename_i hp
      have h2 : stringsIndex n sub = none := by simpa using h
      have hp2 : sub.isPrefixOf (a :: n ++ [c]) = false := by
        by_contra hcon
        have hpre : sub <+: (a :: n) ++ [c] := List.isPrefixOf_iff_prefix.mp (by simpa using hcon)
        rcases List.prefix_concat_iff.mp hpre with h3 | h3
        · exact hc (h3 ▸ by simp)
        · exact hp (List.isPrefixOf_iff_prefix.mpr h3)
      have e : stringsIndex (a :: n ++ [c]) sub =
          if sub.isPrefixOf (a :: n ++ [c]) then some 0
          else (stringsIndex (n ++ [c]) sub).map (· + 1) := rfl
      rw [e, hp2, ih h2]
      rfl

theorem parseLibraryDependency_of (line pre tok : Str)
    (hline : line = pre ++ (tok ++ [')']))
    (hstart : (if stringsContains line "libs.".toList then stringsIndex line "libs.".toList
      else if stringsContains line "deliverooLibs.".toList then
        stringsIndex line "deliverooLibs.".toList
      else none) = some pre.length)
    (hkw : stringsContains line "implementation(".toList = true ∨
      stringsContains line "api(".toList = true ∨
      stringsContains line "compileOnly(".toList = true)
    (hclose : ')' ∉ tok) :
    parseLibraryDependency line = tok := by
  have hany : (!stringsContains line "libs.".toList &&
      !stringsContains line "deliverooLibs.".toList) = false := by
    by_cases h1 : stringsContains line "libs.".toList = true
    · rw [h1]; rfl
    · by_cases h2 : stringsContains line "deliverooLibs.".toList = true
      · rw [h2]; simp
      · rw [if_neg h1, if_neg h2] at hstart
        simp at hstart
  have hkw2 : (!stringsContains line "implementation(".toList &&
      !stringsContains line "api(".toList &&
      !stringsContains line "compileOnly(".toList) = false := by
    rcases hkw with h | h | h <;> rw [h] <;> simp
  have hdrop : line.drop pre.length = tok ++ [')'] := by
    rw [hline, List.drop_left']; rfl
  have hidx2 : stringsIndex (tok ++ [')']) ")".toList = some tok.length :=
    stringsIndex_single tok [] ')' hclose
  have htake : List.take tok.length (tok ++ [')']) = tok := by
    rw [List.take_left']; rfl
  unfold parseLibraryDependency
  simp only [hany, hkw2, Bool.false_eq_true, if_false, hstart, hdrop, hidx2, htake]

/-- C8, amended: for each of the three keywords and every name `n` without
`)`, `parseLibraryDependency` applied to `k(libs.n)` returns `libs.n`
verbatim, and applied to `k(deliverooLibs.n)` it returns `deliverooLibs.n`
verbatim provided `n` has no occurrence of `libs.`. -/
theorem C8_library_declaration_verbatim (k p n : Str) (hk : k ∈ declKeywords)
    (hp : p ∈ libPrefixes) (hn : ')' ∉ n)
    (hlibs : p = "deliverooLibs.".toList → stringsContains n "libs.".toList = false) :
    parseLibraryDependency (libraryDecl k p n) = p ++ n := by
  simp only [declKeywords, libPrefixes, List.mem_cons, List.mem_singleton, List.not_mem_nil,
    or_false] at hk hp
  rcases hp with rfl | rfl
  · have hclose : ')' ∉ "libs.".toList ++ n := by
      intro h
      rcases List.mem_append.mp h with h | h
      · revert h; decide
      · exact hn h
    rcases hk with rfl | rfl | rfl
    · apply parseLibraryDependency_of _ "implementation(".toList _ (by simp [libraryDecl]) _ _
        hclose
      · simp [libraryDecl, stringsContains, stringsIndex, List.isPrefixOf]
      · left; simp [libraryDecl, stringsContains, stringsIndex, List.isPrefixOf]
    · apply parseLibraryDependency_of _ "api(".toList _ (by simp [libraryDecl]) _ _ hclose
      · simp [libraryDecl, stringsContains, stringsIndex, List.isPrefixOf]
      · right; left; simp [libraryDecl, stringsContains, stringsIndex, List.isPrefixOf]
    · apply parseLibraryDependency_of _ "compileOnly(".toList _ (by simp [libraryDecl]) _ _
        hclose
      · simp [libraryDecl, stringsContains, stringsIndex, List.isPrefixOf]
      · right; right; simp [libraryDecl, stringsContains, stringsIndex, List.isPrefixOf]
  · have hclose : ')' ∉ "deliverooLibs.".toList ++ n := by
      intro h
      rcases List.mem_append.mp h with h | h
      · revert h; decide
      · exact hn h
    have hnone : stringsIndex (n ++ [')']) ['l', 'i', 'b', 's', '.'] = none := by
      apply stringsIndex_concat_none n _ ')' (by decide) (by simp)
      have h := hlibs rfl
      unfold stringsContains at h
      cases hx : stringsIndex n "libs.".toList with
      | none => simpa using hx
      | some v => rw [hx] at h; simp at h
    rcases hk with rfl | rfl | rfl
    · apply parseLibraryDependency_of _ "implementation(".toList _ (by simp [libraryDecl]) _ _
        hclose
      · simp [libraryDecl, stringsContains, stringsIndex, List.isPrefixOf, hnone]
      · left; simp [libraryDecl, stringsContains, stringsIndex, List.isPrefixOf]
    · apply parseLibraryDependency_of _ "api(".toList _ (by simp [libraryDecl]) _ _ hclose
      · simp [libraryDecl, stringsContains, stringsIndex, List.isPrefixOf, hnone]
      · right; left; simp [libraryDecl, stringsContains, stringsIndex, List.isPrefixOf]
    · apply parseLibraryDependency_of _ "compileOnly(".toList _ (by simp [libraryDecl]) _ _
        hclose
      · simp [libraryDecl, stringsContains, stringsIndex, List.isPrefixOf, hnone]
      · right; right; simp [libraryDecl, stringsContains, stringsIndex, List.isPrefixOf]

set_option maxRecDepth 100000 in
/-- C8 on the line of the specification: `api(libs.kotlinCoroutines)` yields
`libs.kotlinCoroutines`. -/
theorem C8_library_declaration_verbatim_witness :
    libraryDecl "api".toList "libs.".toList "kotlinCoroutines".toList =
      "api(libs.kotlinCoroutines)".toList ∧
    parseLibraryDependency (libraryDecl "api".toList "libs.".toList "kotlinCoroutines".toList) =
      "libs.".toList ++ "kotlinCoroutines".toList :=
  ⟨by decide, C8_library_declaration_verbatim "api".toList "libs.".toList
    "kotlinCoroutines".toList (by decide) (by decide) (by decide) (by decide)⟩

set_option maxRecDepth 100000 in
/-- C8 as stated fails: the name `libs.foo` has no `)`, yet on
`api(deliverooLibs.libs.foo)` the result starts at the first `libs.` and the
prefix `deliverooLibs.` is lost. -/
theorem C8_counterexample :
    ')' ∉ "libs.foo".toList ∧
    parseLibraryDependency (libraryDecl "api".toList "deliverooLibs.".toList "libs.foo".toList) =
      "libs.foo".toList ∧
    parseLibraryDependency (libraryDecl "api".toList "deliverooLibs.".toList "libs.foo".toList) ≠
      "deliverooLibs.".toList ++ "libs.foo".toList := by
  refine ⟨by decide, by decide, by decide⟩

theorem scanLine_opener (st : ScanState) (text : Str)
    (h : stringsContains (trimSpace text) opener = true) :
    scanLine st text = { st with inDepsBlock := true, braceCount := 1 } := by
  unfold opener at h
  simp only [scanLine, h, if_true]

theorem scanLine_out (st : ScanState) (text : Str)
    (h : stringsContains (trimSpace text) opener = false) (hout : st.inDepsBlock = false) :
    scanLine st text = st := by
  unfold opener at h
  simp only [scanLine, h, hout, Bool.false_eq_true, if_false, Bool.not_false, if_true]

theorem scanLine_in (st : ScanState) (text : Str)
    (h : stringsContains (trimSpace text) opener = false) (hin : st.inDepsBlock = true) :
    scanLine st text =
      { projectDeps := if parseProjectDependency (trimSpace text) ≠ [] then
          st.projectDeps ++ [parseProjectDependency (trimSpace text)] else st.projectDeps,
        libDeps := if parseLibraryDependency (trimSpace text) ≠ [] then
          st.libDeps ++ [parseLibraryDependency (trimSpace text)] else st.libDeps,
        inDepsBlock :=
          if (stringsContains (trimSpace text) "\x7d".toList &&
              (if stringsContains (trimSpace text) "\x7d".toList then
                (if stringsContains (trimSpace text) "\x7b".toList then st.braceCount + 1
                  else st.braceCount) - 1
               else (if stringsContains (trimSpace text) "\x7b".toList then st.braceCount + 1
                  else st.braceCount)) == 0) then false
          else true,
        braceCount :=
          if stringsContains (trimSpace text) "\x7d".toList then
            (if stringsContains (trimSpace text) "\x7b".toList then st.braceCount + 1
              else st.braceCount) - 1
          else (if stringsContains (trimSpace text) "\x7b".toList then st.braceCount + 1
              else st.braceCount) } := by
  unfold opener at h
  simp only [scanLine, h, hin, Bool.false_eq_true, if_false, Bool.not_true]

theorem scanLine_outside (st : ScanState) (text : Str) (hout : st.inDepsBlock = false) :
    (scanLine st text).projectDeps = st.projectDeps ∧
    (scanLine st text).libDeps = st.libDeps ∧
    (stringsContains (trimSpace text) opener = false → scanLine st text = st) := by
  by_cases h : stringsContains (trimSpace text) opener = true
  · rw [scanLine_opener st text h]
    exact ⟨rfl, rfl, fun h2 => by rw [h] at h2; exact absurd h2 (by simp)⟩
  · simp only [Bool.not_eq_true] at h
    rw [scanLine_out st text h hout]
    exact ⟨rfl, rfl, fun _ => rfl⟩

theorem scanLines_append (st : ScanState) (a b : List Str) :
    scanLines st (a ++ b) = scanLines (scanLines st a) b := by
  simp [scanLines, List.foldl_append]

theorem scanLines_no_opener (st : ScanState) (lines : List Str)
    (hout : st.inDepsBlock = false)
    (hno : ∀ l ∈ lines, stringsContains (trimSpace l) opener = false) :
    scanLines st lines = st := by
  induction lines with
  | nil => rfl
  | cons l rest ih =>
    have h1 := (scanLine_outside st l hout).2.2 (hno l (List.mem_cons_self _ _))
    show scanLines (scanLine st l) rest = st
    rw [h1]
    exact ih (fun x hx => hno x (List.mem_cons_of_mem _ hx))

/-- Outside a block the brace counter is `0`. -/
theorem scanLine_closed_zero (st : ScanState) (text : Str)
    (h : st.inDepsBlock = false → st.braceCount = 0) :
    (scanLine st text).inDepsBlock = false → (scanLine st text).braceCount = 0 := by
  by_cases h1 : stringsContains (trimSpace text) opener = true
  · rw [scanLine_opener st text h1]
    intro h2; simp at h2
  · simp only [Bool.not_eq_true] at h1
    by_cases h2 : st.inDepsBlock = true
    · rw [scanLine_in st text h1 h2]
      simp only
      by_cases h3 : stringsContains (trimSpace text) "\x7d".toList = true
      · simp only [h3, if_true, Bool.true_and]
        intro h4
        by_cases h6 : (((if stringsContains (trimSpace text) "\x7b".toList = true then
            st.braceCount + 1 else st.braceCount) - 1) == 0) = true
        · exact eq_of_beq h6
        · rw [if_neg h6] at h4; exact absurd h4 (by simp)
      · simp only [Bool.not_eq_true] at h3
        simp [h3]
    · simp only [Bool.not_eq_true] at h2
      rw [scanLine_out st text h1 h2]
      exact h

theorem scanLines_closed_zero (st : ScanState) (lines : List Str)
    (h : st.inDepsBlock = false → st.braceCount = 0) :
    (scanLines st lines).inDepsBlock = false → (scanLines st lines).braceCount = 0 := by
  induction lines generalizing st with
  | nil => exact h
  | cons l rest ih => exact ih (scanLine st l) (scanLine_closed_zero st l h)

/-- C9: a line met while the scanner is outside any dependency block (before
the first opener line, or after the brace depth of a block came back to 0 and
before the next opener line) adds nothing to either output list; if it is not
itself an opener line the scan goes on as if the line were absent; a text
without an opener line yields two empty lists. -/
theorem C9_outside_block_yields_nothing (pre post : List Str) (text : Str)
    (hout : (scanLines ScanState.init pre).inDepsBlock = false) :
    (scanLines ScanState.init pre).braceCount = 0 ∧
    (scanLines ScanState.init (pre ++ [text])).projectDeps =
      (scanLines ScanState.init pre).projectDeps ∧
    (scanLines ScanState.init (pre ++ [text])).libDeps =
      (scanLines ScanState.init pre).libDeps ∧
    (stringsContains (trimSpace text) opener = false →
      scanLines ScanState.init (pre ++ text :: post) = scanLines ScanState.init (pre ++ post)) ∧
    (∀ lines : List Str, (∀ l ∈ lines, stringsContains (trimSpace l) opener = false) →
      (scanLines ScanState.init lines).inDepsBlock = false ∧
      (scanLines ScanState.init lines).projectDeps = [] ∧
      (scanLines ScanState.init lines).libDeps = []) ∧
    (∀ (T : ProjectTree) (buildFile : Str) (lines : List Str),
      lookupFile T.files buildFile = some (some lines) →
      (∀ l ∈ lines, stringsContains (trimSpace l) opener = false) →
      parseDependencies T buildFile = ([], [])) := by
  have hstep := scanLine_outside (scanLines ScanState.init pre) text hout
  refine ⟨scanLines_closed_zero ScanState.init pre (fun _ => rfl) hout, ?_, ?_, ?_, ?_, ?_⟩
  · rw [scanLines_append]; exact hstep.1
  · rw [scanLines_append]; exact hstep.2.1
  · intro hno
    rw [scanLines_append, scanLines_append]
    show scanLines (scanLine (scanLines ScanState.init pre) text) post = _
    rw [hstep.2.2 hno]
  · intro lines hno
    rw [scanLines_no_opener ScanState.init lines rfl hno]
    exact ⟨rfl, rfl, rfl⟩
  · intro T buildFile lines hfile hno
    unfold parseDependencies
    rw [hfile]
    simp only [scanLines_no_opener ScanState.init lines rfl hno]
    rfl

set_option maxRecDepth 100000 in
/-- C9 on a text whose block is closed and followed by a line with a
well-formed declaration of both kinds: the line yields neither. -/
theorem C9_outside_block_yields_nothing_witness :
    (scanLines ScanState.init
      ["dependencies \x7b".toList, "    api(libs.kotlinCoroutines)".toList,
        "\x7d".toList]).inDepsBlock = false ∧
    parseProjectDependency
      "implementation(projects.account.accountDomain) api(libs.x)".toList =
        ":account:account-domain".toList ∧
    parseLibraryDependency
      "implementation(projects.account.accountDomain) api(libs.x)".toList = "libs.x".toList ∧
    (scanLines ScanState.init
      (["dependencies \x7b".toList, "    api(libs.kotlinCoroutines)".toList, "\x7d".toList] ++
        ["implementation(projects.account.accountDomain) api(libs.x)".toList])).projectDeps =
      (scanLines ScanState.init
        ["dependencies \x7b".toList, "    api(libs.kotlinCoroutines)".toList,
          "\x7d".toList]).projectDeps :=
  ⟨by decide, by decide, by decide,
    (C9_outside_block_yields_nothing
      ["dependencies \x7b".toList, "    api(libs.kotlinCoroutines)".toList, "\x7d".toList] []
      "implementation(projects.account.accountDomain) api(libs.x)".toList (by decide)).2.1⟩

theorem mem_dropWhile_of_not (p : Char → Bool) (c : Char) (hc : p c = false) (l : Str) :
    c ∈ l.dropWhile p ↔ c ∈ l := by
  induction l with
  | nil => simp
  | cons a l ih =>
    by_cases ha : p a = true
    · have hne : c ≠ a := fun e => by rw [e, ha] at hc; exact absurd hc (by simp)
      simp [List.dropWhile, ha, ih, hne]
    · simp [List.dropWhile, ha]

theorem mem_trimSpace (c : Char) (hc : isSpace c = false) (l : Str) :
    c ∈ trimSpace l ↔ c ∈ l := by
  unfold trimSpace
  rw [List.mem_reverse, mem_dropWhile_of_not isSpace c hc, List.mem_reverse,
    mem_dropWhile_of_not isSpace c hc]

theorem contains_brace_trim (c : Char) (hc : isSpace c = false) (l : Str) :
    stringsContains (trimSpace l) [c] = decide (c ∈ l) := by
  by_cases h : c ∈ l
  · rw [decide_eq_true h]
    exact (stringsContains_single _ _).mpr ((mem_trimSpace c hc l).mpr h)
  · rw [decide_eq_false h]
    have := (stringsContains_single (trimSpace l) c).not.mpr (fun h2 => h ((mem_trimSpace c hc l).mp h2))
    simpa using this

theorem indicator_count (c : Char) (l : Str) (h : l.count c ≤ 1) :
    (if decide (c ∈ l) = true then (1 : Int) else 0) = (l.count c : Int) := by
  by_cases hm : c ∈ l
  · have : 0 < l.count c := List.count_pos_iff.mpr hm
    have e : l.count c = 1 := by omega
    simp [hm, e]
  · have e : l.count c = 0 := List.count_eq_zero.mpr hm
    simp [hm, e]

/-- One line scanned inside a block that it neither reopens nor closes. -/
theorem scanLine_stays (st : ScanState) (l : Str) (hin : st.inDepsBlock = true)
    (hone : l.count '\x7b' ≤ 1 ∧ l.count '\x7d' ≤ 1)
    (hno : stringsContains (trimSpace l) opener = false)
    (hopen : 0 < st.braceCount + braceDelta l) :
    scanLine st l =
      { projectDeps := st.projectDeps ++ yields parseProjectDependency [l],
        libDeps := st.libDeps ++ yields parseLibraryDependency [l],
        inDepsBlock := true,
        braceCount := st.braceCount + braceDelta l } := by
  rw [scanLine_in st l hno hin]
  have ho : stringsContains (trimSpace l) "\x7b".toList = decide ('\x7b' ∈ l) :=
    contains_brace_trim '\x7b' (by decide) l
  have hc : stringsContains (trimSpace l) "\x7d".toList = decide ('\x7d' ∈ l) :=
    contains_brace_trim '\x7d' (by decide) l
  have io := indicator_count '\x7b' l hone.1
  have ic := indicator_count '\x7d' l hone.2
  have hbc : (if stringsContains (trimSpace l) "\x7d".toList = true then
        (if stringsContains (trimSpace l) "\x7b".toList = true then st.braceCount + 1
          else st.braceCount) - 1
      else (if stringsContains (trimSpace l) "\x7b".toList = true then st.braceCount + 1
          else st.braceCount)) = st.braceCount + braceDelta l := by
    rw [ho, hc]
    unfold braceDelta
    rw [← io, ← ic]
    split <;> split <;> omega
  rw [hbc]
  have hnz : (st.braceCount + braceDelta l == 0) = false := by
    simp only [beq_eq_false_iff_ne, ne_eq]; omega
  rw [hnz]
  have hp : (if parseProjectDependency (trimSpace l) ≠ [] then
      st.projectDeps ++ [parseProjectDependency (trimSpace l)] else st.projectDeps) =
      st.projectDeps ++ yields parseProjectDependency [l] := by
    by_cases h : parseProjectDependency (trimSpace l) = [] <;> simp [yields, h]
  have hl : (if parseLibraryDependency (trimSpace l) ≠ [] then
      st.libDeps ++ [parseLibraryDependency (trimSpace l)] else st.libDeps) =
      st.libDeps ++ yields parseLibraryDependency [l] := by
    by_cases h : parseLibraryDependency (trimSpace l) = [] <;> simp [yields, h]
  rw [hp, hl]
  simp

theorem yields_cons (f : Str → Str) (l : Str) (rest : List Str) :
    yields f (l :: rest) = yields f [l] ++ yields f rest := by
  simp only [yields, List.map_cons, List.map_nil]
  rw [← List.filter_append]
  rfl

/-- Lines scanned from a state inside a block: while the counter stays
positive, every line is scanned and the block is not left. -/
theorem scanLines_keep_block (st : ScanState) (body : List Str)
    (hin : st.inDepsBlock = true)
    (hone : ∀ l ∈ body, l.count '\x7b' ≤ 1 ∧ l.count '\x7d' ≤ 1)
    (hno : ∀ l ∈ body, stringsContains (trimSpace l) opener = false)
    (hopen : ∀ n, n ≤ body.length → 0 < st.braceCount + ((body.take n).map braceDelta).sum) :
    (scanLines st body).inDepsBlock = true ∧
    (scanLines st body).braceCount = st.braceCount + (body.map braceDelta).sum ∧
    (scanLines st body).projectDeps = st.projectDeps ++ yields parseProjectDependency body ∧
    (scanLines st body).libDeps = st.libDeps ++ yields parseLibraryDependency body := by
  induction body generalizing st with
  | nil => simp [scanLines, yields, hin]
  | cons l rest ih =>
    have h1 : 0 < st.braceCount + braceDelta l := by
      have := hopen 1 (by simp)
      simpa using this
    have hstep := scanLine_stays st l hin (hone l (List.mem_cons_self _ _))
      (hno l (List.mem_cons_self _ _)) h1
    have hrest := ih (scanLine st l) (by rw [hstep])
      (fun x hx => hone x (List.mem_cons_of_mem _ hx))
      (fun x hx => hno x (List.mem_cons_of_mem _ hx))
      (fun n hn => by
        have := hopen (n + 1) (by simp; omega)
        rw [hstep]
        simp only [List.take_succ_cons, List.map_cons, List.sum_cons] at this
        simp only
        omega)
    show (scanLines (scanLine st l) rest).inDepsBlock = true ∧ _
    obtain ⟨r1, r2, r3, r4⟩ := hrest
    refine ⟨r1, ?_, ?_, ?_⟩
    · show (scanLines (scanLine st l) rest).braceCount = _
      rw [r2, hstep]; simp only [List.map_cons, List.sum_cons]; omega
    · show (scanLines (scanLine st l) rest).projectDeps = _
      rw [r3, hstep, yields_cons parseProjectDependency l rest, List.append_assoc]
    · show (scanLines (scanLine st l) rest).libDeps = _
      rw [r4, hstep, yields_cons parseLibraryDependency l rest, List.append_assoc]

theorem charDepth_eq (d : Int) (s : Str) : charDepth d s = d + braceDelta s := by
  unfold charDepth braceDelta
  induction s generalizing d with
  | nil => simp
  | cons c s ih =>
    simp only [List.foldl_cons, ih, List.count_cons]
    by_cases h1 : c = '\x7b'
    · subst h1; simp; omega
    · by_cases h2 : c = '\x7d'
      · subst h2; simp; omega
      · simp [h1, h2]

theorem charDepth_flatten (d : Int) (ls : List Str) :
    charDepth d ls.flatten = d + (ls.map braceDelta).sum := by
  induction ls generalizing d with
  | nil => simp [charDepth]
  | cons l ls ih =>
    have e : charDepth d (l :: ls).flatten = charDepth (charDepth d l) ls.flatten := by
      simp [charDepth, List.foldl_append]
    rw [e, ih, charDepth_eq]
    simp only [List.map_cons, List.sum_cons]
    omega

/-- C10, amended: take a descriptor with an opener line that carries no brace
but the opener's own, followed by lines none of which carries more than one
opening or more than one closing brace or the opener text, and along which
the brace depth of the text, counted from the opener line, stays positive
(the block's own closing brace is not among them).  Whatever precedes the
opener line, the scanner is still inside the block after these lines, its
counter equals the brace depth of the text, and every one of these lines,
also one after a nested closing brace, is scanned and the dependencies of its
declaration are yielded. -/
theorem C10_nested_braces_keep_block (pre body : List Str) (op : Str)
    (hop : stringsContains (trimSpace op) opener = true)
    (hop1 : op.count '\x7b' = 1 ∧ op.count '\x7d' = 0)
    (hone : ∀ l ∈ body, l.count '\x7b' ≤ 1 ∧ l.count '\x7d' ≤ 1)
    (hno : ∀ l ∈ body, stringsContains (trimSpace l) opener = false)
    (hopen : ∀ n, n ≤ body.length → 0 < charDepth 0 (op :: body.take n).flatten) :
    (scanLines ScanState.init (pre ++ op :: body)).inDepsBlock = true ∧
    (scanLines ScanState.init (pre ++ op :: body)).braceCount =
      charDepth 0 (op :: body).flatten ∧
    (scanLines ScanState.init (pre ++ op :: body)).projectDeps =
      (scanLines ScanState.init pre).projectDeps ++ yields parseProjectDependency body ∧
    (scanLines ScanState.init (pre ++ op :: body)).libDeps =
      (scanLines ScanState.init pre).libDeps ++ yields parseLibraryDependency body := by
  have hdelta : braceDelta op = 1 := by
    unfold braceDelta; rw [hop1.1, hop1.2]; rfl
  have hsplit : scanLines ScanState.init (pre ++ op :: body) =
      scanLines (scanLine (scanLines ScanState.init pre) op) body := by
    rw [scanLines_append]; rfl
  have hstart := scanLine_opener (scanLines ScanState.init pre) op hop
  have hkeep := scanLines_keep_block (scanLine (scanLines ScanState.init pre) op) body
    (by rw [hstart]) hone hno
    (fun n hn => by
      have := hopen n hn
      rw [charDepth_flatten] at this
      simp only [List.map_cons, List.sum_cons, hdelta] at this
      rw [hstart]
      simp only
      omega)
  rw [hsplit]
  obtain ⟨k1, k2, k3, k4⟩ := hkeep
  refine ⟨k1, ?_, ?_, ?_⟩
  · rw [k2, hstart, charDepth_flatten]
    simp only [List.map_cons, List.sum_cons, hdelta]
    omega
  · rw [k3, hstart]
  · rw [k4, hstart]

set_option maxRecDepth 100000 in
/-- C10 on a descriptor with a plugins block, an opener line and a block with
one nested brace pair: the declaration after the nested closing brace is
scanned and `:account:account-domain` is yielded. -/
theorem C10_nested_braces_keep_block_witness :
    (scanLines ScanState.init
      (["plugins \x7b".toList, "\x7d".toList] ++ opener :: nestedBody)).inDepsBlock = true ∧
    (scanLines ScanState.init
      (["plugins \x7b".toList, "\x7d".toList] ++ opener :: nestedBody)).projectDeps =
      [":account:account-domain".toList] ∧
    (scanLines ScanState.init
      (["plugins \x7b".toList, "\x7d".toList] ++ opener :: nestedBody)).libDeps =
      ["libs.retrofit".toList] := by
  have h := C10_nested_braces_keep_block ["plugins \x7b".toList, "\x7d".toList] nestedBody
    opener (by decide) (by decide) (by decide) (by decide)
    (by
      intro n hn
      have hn4 : n ≤ 4 := hn
      interval_cases n <;> decide)
  refine ⟨h.1, ?_, ?_⟩
  · rw [h.2.2.1]; decide
  · rw [h.2.2.2]; decide

set_option maxRecDepth 100000 in
/-- C10 as stated fails: in `nestedDescriptor` a line of the block opens two
nested braces that are closed on two later lines; the declaration that
follows lies inside the block (the brace depth at character level is still 1
there and reaches 0 only on the last line), it would yield
`:account:account-domain`, but the scanner left the block at the second
nested closing brace and yields no project dependency. -/
theorem C10_counterexample :
    charDepth 0 (nestedDescriptor.take 5).flatten = 1 ∧
    charDepth 0 (nestedDescriptor.take 6).flatten = 1 ∧
    charDepth 0 nestedDescriptor.flatten = 0 ∧
    nestedDescriptor.get? 5 = some "    implementation(projects.account.accountDomain)".toList ∧
    parseProjectDependency (trimSpace "    implementation(projects.account.accountDomain)".toList)
      = ":account:account-domain".toList ∧
    (scanLines ScanState.init (nestedDescriptor.take 4)).inDepsBlock = true ∧
    (scanLines ScanState.init (nestedDescriptor.take 5)).inDepsBlock = false ∧
    (scanLines ScanState.init nestedDescriptor).projectDeps = [] := by
  refine ⟨by decide, by decide, by decide, by decide, by decide, by decide, by decide, by decide⟩

/-! ## The identifier normalizer -/

theorem hasPrefix_colon_guard (module : Str) :
    hasPrefix (if hasPrefix module ":".toList then module else ":".toList ++ module)
      ":".toList = true := by
  by_cases h : hasPrefix module ":".toList = true
  · rw [if_pos h]; exact h
  · rw [if_neg h]; simp [hasPrefix, List.isPrefixOf]

theorem dotToModule_hasPrefix (t : Str) : hasPrefix (dotToModule t) ":".toList = true := by
  unfold dotToModule
  exact hasPrefix_colon_guard _

theorem parseProjectDependency_nil_or (line : Str) :
    parseProjectDependency line = [] ∨ ∃ t, parseProjectDependency line = dotToModule t := by
  unfold parseProjectDependency
  split
  · exact Or.inl rfl
  · split
    · exact Or.inl rfl
    · split
      · exact Or.inl rfl
      · split
        · exact Or.inl rfl
        · exact Or.inr ⟨_, rfl⟩

/-- C14: `dotToModule` of any string, the empty one included, begins with
`:`, and so does every non-empty result of `parseProjectDependency`. -/
theorem C14_module_begins_with_colon (t line : Str) :
    hasPrefix (dotToModule t) ":".toList = true ∧
    (dotToModule t).head? = some ':' ∧
    (parseProjectDependency line ≠ [] →
      hasPrefix (parseProjectDependency line) ":".toList = true) := by
  have h := dotToModule_hasPrefix t
  refine ⟨h, ?_, ?_⟩
  · cases hd : dotToModule t with
    | nil => rw [hd] at h; simp [hasPrefix, List.isPrefixOf] at h
    | cons c rest =>
      rw [hd] at h
      simp only [hasPrefix, String.toList, List.isPrefixOf, Bool.and_eq_true, beq_iff_eq] at h
      simp [h.1.symm]
  · intro hne
    rcases parseProjectDependency_nil_or line with h0 | ⟨u, hu⟩
    · exact absurd h0 hne
    · rw [hu]; exact dotToModule_hasPrefix u

set_option maxRecDepth 100000 in
/-- C14 on the empty string and on a declaration line. -/
theorem C14_module_begins_with_colon_witness :
    dotToModule [] = ":".toList ∧
    parseProjectDependency "api(projects.core)".toList = ":core".toList ∧
    hasPrefix (parseProjectDependency "api(projects.core)".toList) ":".toList = true :=
  ⟨by decide, by decide,
    (C14_module_begins_with_colon [] "api(projects.core)".toList).2.2 (by decide)⟩

/-! ## Kebab-casing -/

theorem toLower_of_not_upper (c : Char) (h : ¬ ('A' ≤ c ∧ c ≤ 'Z')) : c.toLower = c := by
  have h2 : ¬ (c.toNat ≥ 65 ∧ c.toNat ≤ 90) := by
    intro ⟨a, b⟩
    exact h ⟨a, b⟩
  simp only [Char.toLower]
  rw [if_neg h2]

set_option maxRecDepth 100000 in
theorem toLower_ascii_not_upper (n : Nat) (hn : n < 128) :
    ¬ ('A' ≤ (Char.ofNat n).toLower ∧ (Char.ofNat n).toLower ≤ 'Z') := by
  revert n
  decide

theorem char_eq_ofNat (c : Char) : c = Char.ofNat c.toNat := (Char.ofNat_toNat c).symm

theorem toLower_not_upper (c : Char) (hc : c.toNat < 128) :
    ¬ ('A' ≤ c.toLower ∧ c.toLower ≤ 'Z') := by
  rw [char_eq_ofNat c]
  exact toLower_ascii_not_upper c.toNat hc

theorem kebabLoop_pos (s : Str) (i : Nat) (hi : 0 < i) (acc : Str) :
    kebabLoop s i acc =
      acc ++ s.flatMap (fun r => if 'A' ≤ r ∧ r ≤ 'Z' then ['-', r] else [r]) := by
  induction s generalizing i acc with
  | nil => simp [kebabLoop]
  | cons r s ih =>
    simp only [kebabLoop, hi, true_and, List.flatMap_cons]
    rw [ih (i + 1) (by omega)]
    by_cases h : 'A' ≤ r ∧ r ≤ 'Z'
    · simp [h]
    · simp [h]

theorem toKebabCase_eq_spec (s : Str) : toKebabCase s = kebabSpec s := by
  cases s with
  | nil => rfl
  | cons c rest =>
    simp only [toKebabCase, kebabSpec, stringsToLower, kebabLoop]
    rw [kebabLoop_pos rest 1 (by omega)]
    simp

theorem length_flatMap_dash (s : Str) :
    (s.flatMap (fun r => if 'A' ≤ r ∧ r ≤ 'Z' then ['-', r] else [r])).length =
      s.length + s.countP (fun r => decide ('A' ≤ r ∧ r ≤ 'Z')) := by
  induction s with
  | nil => rfl
  | cons r s ih =>
    simp only [List.flatMap_cons, List.length_append, ih, List.length_cons, List.countP_cons]
    by_cases h : 'A' ≤ r ∧ r ≤ 'Z'
    · simp [h]; omega
    · simp [h]; omega

theorem mem_flatMap_dash (s : Str) (x : Char)
    (hx : x ∈ s.flatMap (fun r => if 'A' ≤ r ∧ r ≤ 'Z' then ['-', r] else [r])) :
    x = '-' ∨ x ∈ s := by
  rw [List.mem_flatMap] at hx
  obtain ⟨r, hr, hxr⟩ := hx
  by_cases h : 'A' ≤ r ∧ r ≤ 'Z'
  · rw [if_pos h] at hxr
    simp only [List.mem_cons, List.mem_singleton, List.not_mem_nil, or_false] at hxr
    rcases hxr with rfl | rfl
    · exact Or.inl rfl
    · exact Or.inr hr
  · rw [if_neg h] at hxr
    simp only [List.mem_singleton] at hxr
    subst hxr; exact Or.inr hr

/-- C19: on an ASCII string `toKebabCase` inserts a `-` before each uppercase
letter `A`-`Z` that is not the first character and lowercases every letter;
the result has no uppercase ASCII letter and its length is the length of the
input plus the number of uppercase letters after the first character. -/
theorem C19_kebab_case (s : Str) (hascii : ∀ c ∈ s, c.toNat < 128) :
    toKebabCase s = kebabSpec s ∧
    (∀ c ∈ toKebabCase s, ¬ ('A' ≤ c ∧ c ≤ 'Z')) ∧
    (toKebabCase s).length =
      s.length + s.tail.countP (fun r => decide ('A' ≤ r ∧ r ≤ 'Z')) := by
  refine ⟨toKebabCase_eq_spec s, ?_, ?_⟩
  · rw [toKebabCase_eq_spec]
    cases s with
    | nil => simp [kebabSpec]
    | cons c rest =>
      intro x hx
      simp only [kebabSpec, List.mem_map] at hx
      obtain ⟨y, hy, rfl⟩ := hx
      apply toLower_not_upper
      rcases List.mem_cons.mp hy with rfl | hy
      · exact hascii _ (List.mem_cons_self _ _)
      · rcases mem_flatMap_dash rest y hy with rfl | hy
        · decide
        · exact hascii y (List.mem_cons_of_mem _ hy)
  · rw [toKebabCase_eq_spec]
    cases s with
    | nil => rfl
    | cons c rest =>
      simp only [kebabSpec, List.length_map, List.length_cons, length_flatMap_dash, List.tail_cons]
      omega

set_option maxRecDepth 100000 in
/-- C19 on `accountDomain`, which gives `account-domain`. -/
theorem C19_kebab_case_witness :
    toKebabCase "accountDomain".toList = "account-domain".toList ∧
    toKebabCase "accountDomain".toList = kebabSpec "accountDomain".toList ∧
    (toKebabCase "accountDomain".toList).length = "accountDomain".toList.length + 1 :=
  ⟨by decide, (C19_kebab_case "accountDomain".toList (by decide)).1,
    by decide⟩

theorem toKebabCase_of_no_upper (s : Str) (h : ∀ c ∈ s, ¬ ('A' ≤ c ∧ c ≤ 'Z')) :
    toKebabCase s = s := by
  rw [toKebabCase_eq_spec]
  cases s with
  | nil => rfl
  | cons c rest =>
    have hflat : ∀ l : Str, (∀ x ∈ l, ¬ ('A' ≤ x ∧ x ≤ 'Z')) →
        l.flatMap (fun r => if 'A' ≤ r ∧ r ≤ 'Z' then ['-', r] else [r]) = l := by
      intro l hl
      induction l with
      | nil => rfl
      | cons a l ih =>
        simp only [List.flatMap_cons, if_neg (hl a (List.mem_cons_self _ _))]
        rw [ih (fun x hx => hl x (List.mem_cons_of_mem _ hx))]
        rfl
    have hmap : ∀ l : Str, (∀ x ∈ l, ¬ ('A' ≤ x ∧ x ≤ 'Z')) → l.map Char.toLower = l := by
      intro l hl
      induction l with
      | nil => rfl
      | cons a l ih =>
        simp only [List.map_cons, toLower_of_not_upper a (hl a (List.mem_cons_self _ _)),
          ih (fun x hx => hl x (List.mem_cons_of_mem _ hx))]
    simp only [kebabSpec]
    rw [hflat rest (fun x hx => h x (List.mem_cons_of_mem _ hx)), hmap _ h]

theorem intercalate_cons_cons (sep s t : Str) (rest : List Str) :
    List.intercalate sep (s :: t :: rest) = s ++ sep ++ List.intercalate sep (t :: rest) := by
  simp [List.intercalate, List.intersperse]

theorem map_colon_joined (segs : List Str) (h : ∀ seg ∈ segs, ':' ∉ seg) :
    (stringsJoin segs ":".toList).map (fun c => if c = ':' then '.' else c) =
      stringsJoin segs ".".toList := by
  have hseg : ∀ s : Str, ':' ∉ s → s.map (fun c => if c = ':' then '.' else c) = s := by
    intro s hs
    induction s with
    | nil => rfl
    | cons a s ih =>
      have ha : a ≠ ':' := fun e => hs (e ▸ List.mem_cons_self _ _)
      simp only [List.map_cons, if_neg ha, ih (fun hm => hs (List.mem_cons_of_mem _ hm))]
  unfold stringsJoin
  induction segs with
  | nil => rfl
  | cons s rest ih =>
    cases rest with
    | nil => simpa [List.intercalate] using hseg s (h s (List.mem_cons_self _ _))
    | cons t rest2 =>
      rw [intercalate_cons_cons, intercalate_cons_cons, List.map_append, List.map_append,
        hseg s (h s (List.mem_cons_self _ _)),
        ih (fun seg hs => h seg (List.mem_cons_of_mem _ hs))]
      rfl

theorem split_dot_joined_of_no_dot (segs : List Str) (hne : segs ≠ [])
    (hdot : ∀ seg ∈ segs, '.' ∉ seg) :
    stringsSplit ('.' :: stringsJoin segs ".".toList) '.' = [] :: segs := by
  unfold stringsSplit stringsJoin
  have e : '.' :: List.intercalate ".".toList segs = List.intercalate ['.'] ([] :: segs) := by
    cases segs with
    | nil => exact absurd rfl hne
    | cons s rest => simp [List.intercalate, List.intersperse]
  rw [e]
  apply List.splitOn_intercalate
  · intro l hl
    rcases List.mem_cons.mp hl with h | h
    · subst h; simp
    · exact hdot l h
  · simp

theorem dotToModule_projects_of_no_dot (segs : List Str) (hne : segs ≠ [])
    (hdot : ∀ seg ∈ segs, '.' ∉ seg) :
    dotToModule ("projects.".toList ++ stringsJoin segs ".".toList) =
      ":".toList ++ stringsJoin (segs.map toKebabCase) ":".toList := by
  unfold dotToModule
  have hp : hasPrefix ("projects.".toList ++ stringsJoin segs ".".toList) "projects.".toList
      = true := by
    simp [hasPrefix, List.isPrefixOf]
  have hd : ("projects.".toList ++ stringsJoin segs ".".toList).drop 8 =
      '.' :: stringsJoin segs ".".toList := by
    simp
  simp only [hp, if_true, hd, split_dot_joined_of_no_dot segs hne hdot, List.map_cons]
  have hk : toKebabCase [] = [] := rfl
  rw [hk]
  cases segs with
  | nil => exact absurd rfl hne
  | cons s rest =>
    have e : stringsJoin ([] :: List.map toKebabCase (s :: rest)) ":".toList =
        ':' :: stringsJoin (List.map toKebabCase (s :: rest)) ":".toList := by
      simp [stringsJoin, List.intercalate, List.intersperse]
    rw [e]
    simp [hasPrefix, List.isPrefixOf]

/-- C13, amended: for every module identifier `:` + segments joined by `:`
whose segments are made of ASCII characters other than the uppercase letters
`A`-`Z`, `.` and `:`, `dotToModule (moduleToDotNotation m) = m`. -/
theorem C13_round_trip_lowercase (segs : List Str) (hne : segs ≠ [])
    (hseg : ∀ seg ∈ segs, ∀ c ∈ seg,
      c.toNat < 128 ∧ c ≠ '.' ∧ c ≠ ':' ∧ ¬ ('A' ≤ c ∧ c ≤ 'Z')) :
    dotToModule (moduleToDotNotation (":".toList ++ stringsJoin segs ":".toList)) =
      ":".toList ++ stringsJoin segs ":".toList := by
  have h1 : moduleToDotNotation (":".toList ++ stringsJoin segs ":".toList) =
      "projects.".toList ++ stringsJoin segs ".".toList := by
    unfold moduleToDotNotation
    have hp : hasPrefix (":".toList ++ stringsJoin segs ":".toList) ":".toList = true := by
      simp [hasPrefix, List.isPrefixOf]
    have hd : (":".toList ++ stringsJoin segs ":".toList).drop 1 = stringsJoin segs ":".toList :=
      rfl
    rw [if_pos hp, hd,
      map_colon_joined segs (fun seg hs hm => (hseg seg hs ':' hm).2.2.1 rfl)]
  rw [h1, dotToModule_projects_of_no_dot segs hne
    (fun seg hs hm => (hseg seg hs '.' hm).2.1 rfl)]
  have h2 : segs.map toKebabCase = segs := by
    have : ∀ l : List Str, (∀ seg ∈ l, ∀ c ∈ seg, ¬ ('A' ≤ c ∧ c ≤ 'Z')) →
        l.map toKebabCase = l := by
      intro l hl
      induction l with
      | nil => rfl
      | cons a l ih =>
        simp only [List.map_cons, toKebabCase_of_no_upper a (hl a (List.mem_cons_self _ _)),
          ih (fun seg hs => hl seg (List.mem_cons_of_mem _ hs))]
    exact this segs (fun seg hs c hc => (hseg seg hs c hc).2.2.2)
  rw [h2]

set_option maxRecDepth 100000 in
/-- C13 on `:account:account-domain`. -/
theorem C13_round_trip_lowercase_witness :
    ":".toList ++ stringsJoin ["account".toList, "account-domain".toList] ":".toList =
      ":account:account-domain".toList ∧
    moduleToDotNotation ":account:account-domain".toList =
      "projects.account.account-domain".toList ∧
    dotToModule (moduleToDotNotation
      (":".toList ++ stringsJoin ["account".toList, "account-domain".toList] ":".toList)) =
      ":".toList ++ stringsJoin ["account".toList, "account-domain".toList] ":".toList :=
  ⟨by decide, by decide,
    C13_round_trip_lowercase ["account".toList, "account-domain".toList] (by decide)
      (by decide)⟩

set_option maxRecDepth 100000 in
/-- C13 as stated fails: the identifier `:account:accountDomain` has simple
camelCase segments, its reference token is `projects.account.accountDomain`,
and `dotToModule` turns that into `:account:account-domain`. -/
theorem C13_counterexample :
    moduleToDotNotation ":account:accountDomain".toList =
      "projects.account.accountDomain".toList ∧
    dotToModule (moduleToDotNotation ":account:accountDomain".toList) =
      ":account:account-domain".toList ∧
    dotToModule (moduleToDotNotation ":account:accountDomain".toList) ≠
      ":account:accountDomain".toList := by
  refine ⟨by decide, by decide, by decide⟩

/-! ## Recorded depth, clone expansion and token extraction -/

set_option maxRecDepth 100000 in
/-- C15 at the failing input: on `rediscoverTree` with `maxDepth = 2` the
module `:b` is first enqueued at depth 1 while `:root` is visited; visiting
`:a` assigns `depth[:b] = 2`, both queued entries of `:b` are then skipped,
and `:b`, one edge from the root and declaring `:c`, is not a key of the
result. -/
theorem C15_rediscovery_overwrites_depth :
    rediscoverAfterRoot.queue = [":a".toList, ":b".toList] ∧
    rediscoverAfterRoot.depth ":b".toList = 1 ∧
    rediscoverAfterA.queue = [":b".toList, ":b".toList] ∧
    rediscoverAfterA.depth ":b".toList = 2 ∧
    Analyze rediscoverTree ":root".toList 2 4 =
      some ([(":root".toList, [":a".toList, ":b".toList]), (":a".toList, [":b".toList])],
        [(":root".toList, []), (":a".toList, [])]) ∧
    DeclaredEdge rediscoverTree ":root".toList ":b".toList ∧
    scanOf rediscoverTree ":b".toList = ([":c".toList], []) := by
  refine ⟨by decide, by decide, by decide, by decide, by decide, ⟨by decide, by decide⟩,
    by decide⟩

set_option maxRecDepth 100000 in
/-- C16 at the failing input: on `chainGraph` the clone `C_1` of `C` gets the
child `D_1`, a clone of `D`; `D` has the dependency `E` in the graph, but the
dequeued `D_1` is looked up under its own identifier and gets no outgoing
edge, so the only node labelled `E` hangs under the original `D`. -/
theorem C16_clone_children_not_replayed :
    ∃ stmts, createDotContent chainGraph [] "root".toList "LR".toList true 7 = some stmts ∧
      labelsOf stmts "C_1".toList = ["C".toList] ∧
      labelsOf stmts "D_1".toList = ["D".toList] ∧
      edgeStmt Kind.project "C_1".toList "D_1".toList ∈ stmts ∧
      mapGet chainGraph "D".toList = some ["E".toList] ∧
      mapGet chainGraph "D_1".toList = none ∧
      outDegree stmts "D_1".toList = 0 ∧
      outDegree stmts "D".toList = 1 ∧
      labelsOf stmts "E_1".toList = [] := by
  refine ⟨_, rfl, ?_, ?_, ?_, ?_, ?_, ?_, ?_, ?_⟩ <;> decide

theorem parseProjectDependency_token (line : Str) (h : parseProjectDependency line ≠ []) :
    (stringsContains line "implementation(projects.".toList = true ∨
      stringsContains line "api(projects.".toList = true ∨
      stringsContains line "compileOnly(projects.".toList = true) ∧
    ∃ start stop, stringsIndex line "projects.".toList = some start ∧
      stringsIndex (line.drop start) ")".toList = some stop ∧
      parseProjectDependency line = dotToModule ((line.drop start).take stop) := by
  unfold parseProjectDependency at h ⊢
  split at h
  · exact absurd rfl h
  · split at h
    · exact absurd rfl h
    · rename_i h1 h2
      have hkw : stringsContains line "implementation(projects.".toList = true ∨
          stringsContains line "api(projects.".toList = true ∨
          stringsContains line "compileOnly(projects.".toList = true := by
        by_contra hcon
        simp only [not_or, Bool.not_eq_true] at hcon
        apply h2
        rw [hcon.1, hcon.2.1, hcon.2.2]
        rfl
      rw [if_neg h1, if_neg h2]
      refine ⟨hkw, ?_⟩
      cases hs : stringsIndex line "projects.".toList with
      | none => rw [hs] at h; exact absurd rfl h
      | some start =>
        rw [hs] at h
        simp only at h ⊢
        cases he : stringsIndex (line.drop start) ")".toList with
        | none => rw [he] at h; exact absurd rfl h
        | some stop => exact ⟨start, stop, rfl, he, rfl⟩

theorem parseLibraryDependency_token (line : Str) (h : parseLibraryDependency line ≠ []) :
    (stringsContains line "implementation(".toList = true ∨
      stringsContains line "api(".toList = true ∨
      stringsContains line "compileOnly(".toList = true) ∧
    ∃ start stop,
      (stringsIndex line "libs.".toList = some start ∨
        (stringsIndex line "libs.".toList = none ∧
          stringsIndex line "deliverooLibs.".toList = some start)) ∧
      stringsIndex (line.drop start) ")".toList = some stop ∧
      parseLibraryDependency line = (line.drop start).take stop := by
  unfold parseLibraryDependency at h ⊢
  split at h
  · exact absurd rfl h
  · split at h
    · exact absurd rfl h
    · rename_i h1 h2
      have hkw : stringsContains line "implementation(".toList = true ∨
          stringsContains line "api(".toList = true ∨
          stringsContains line "compileOnly(".toList = true := by
        by_contra hcon
        simp only [not_or, Bool.not_eq_true] at hcon
        apply h2
        rw [hcon.1, hcon.2.1, hcon.2.2]
        rfl
      rw [if_neg h1, if_neg h2]
      refine ⟨hkw, ?_⟩
      simp only at h ⊢
      by_cases hl : stringsContains line "libs.".toList = true
      · rw [if_pos hl] at h ⊢
        cases hs : stringsIndex line "libs.".toList with
        | none => rw [hs] at h; exact absurd rfl h
        | some start =>
          rw [hs] at h
          simp only at h ⊢
          cases he : stringsIndex (line.drop start) ")".toList with
          | none => rw [he] at h; exact absurd rfl h
          | some stop => exact ⟨start, stop, Or.inl rfl, he, rfl⟩
      · rw [if_neg hl] at h ⊢
        have hnone : stringsIndex line "libs.".toList = none := by
          unfold stringsContains at hl
          cases hx : stringsIndex line "libs.".toList with
          | none => rfl
          | some v => rw [hx] at hl; exact absurd rfl hl
        by_cases hd : stringsContains line "deliverooLibs.".toList = true
        · rw [if_pos hd] at h ⊢
          cases hs : stringsIndex line "deliverooLibs.".toList with
          | none => rw [hs] at h; exact absurd rfl h
          | some start =>
            rw [hs] at h
            simp only at h ⊢
            cases he : stringsIndex (line.drop start) ")".toList with
            | none => rw [he] at h; exact absurd rfl h
            | some stop => exact ⟨start, stop, Or.inr ⟨hnone, rfl⟩, he, rfl⟩
        · rw [if_neg hd] at h
          exact absurd rfl h

/-- C18, amended: whenever a line yields a project dependency, the line
contains `projects.` directly after one of the three keyword forms
somewhere, and the token extracted runs from the first occurrence of
`projects.` in the line to the first following `)`; whenever a line yields a
library dependency, the line contains one of `implementation(`, `api(`,
`compileOnly(` somewhere, and the token extracted runs from the first
occurrence of `libs.` (or, when there is none, of `deliverooLibs.`) to the
first following `)`. -/
theorem C18_token_from_first_occurrence (line : Str) :
    (parseProjectDependency line ≠ [] →
      (stringsContains line "implementation(projects.".toList = true ∨
        stringsContains line "api(projects.".toList = true ∨
        stringsContains line "compileOnly(projects.".toList = true) ∧
      ∃ start stop, stringsIndex line "projects.".toList = some start ∧
        stringsIndex (line.drop start) ")".toList = some stop ∧
        parseProjectDependency line = dotToModule ((line.drop start).take stop)) ∧
    (parseLibraryDependency line ≠ [] →
      (stringsContains line "implementation(".toList = true ∨
        stringsContains line "api(".toList = true ∨
        stringsContains line "compileOnly(".toList = true) ∧
      ∃ start stop,
        (stringsIndex line "libs.".toList = some start ∨
          (stringsIndex line "libs.".toList = none ∧
            stringsIndex line "deliverooLibs.".toList = some start)) ∧
        stringsIndex (line.drop start) ")".toList = some stop ∧
        parseLibraryDependency line = (line.drop start).take stop) :=
  ⟨parseProjectDependency_token line, parseLibraryDependency_token line⟩

set_option maxRecDepth 100000 in
/-- C18 on a line with a platform dependency: the token starts at the first
`libs.`, index 24. -/
theorem C18_token_from_first_occurrence_witness :
    parseLibraryDependency "implementation(platform(libs.firebase.bom))".toList =
      "libs.firebase.bom".toList ∧
    stringsIndex "implementation(platform(libs.firebase.bom))".toList "libs.".toList = some 24 ∧
    ((stringsContains "implementation(platform(libs.firebase.bom))".toList
        "implementation(".toList = true ∨
      stringsContains "implementation(platform(libs.firebase.bom))".toList
        "api(".toList = true ∨
      stringsContains "implementation(platform(libs.firebase.bom))".toList
        "compileOnly(".toList = true) ∧
    ∃ start stop,
      (stringsIndex "implementation(platform(libs.firebase.bom))".toList "libs.".toList
          = some start ∨
        (stringsIndex "implementation(platform(libs.firebase.bom))".toList "libs.".toList
            = none ∧
          stringsIndex "implementation(platform(libs.firebase.bom))".toList
            "deliverooLibs.".toList = some start)) ∧
      stringsIndex ("implementation(platform(libs.firebase.bom))".toList.drop start)
        ")".toList = some stop ∧
      parseLibraryDependency "implementation(platform(libs.firebase.bom))".toList =
        ("implementation(platform(libs.firebase.bom))".toList.drop start).take stop) :=
  ⟨by decide, by decide,
    (C18_token_from_first_occurrence "implementation(platform(libs.firebase.bom))".toList).2
      (by decide)⟩

set_option maxRecDepth 100000 in
/-- C18 as stated fails.  On `implementation(platform(libs.firebase.bom))`
the scanner yields `libs.firebase.bom`, a token that follows `platform(` and
stands after none of the three forms.  On
`testImplementation(projects.testUtils); implementation(projects.core)` it
yields `:test-utils` from the token `projects.testUtils`, which follows
`testImplementation(` and stands after none of the three forms. -/
theorem C18_counterexample :
    parseLibraryDependency "implementation(platform(libs.firebase.bom))".toList =
      "libs.firebase.bom".toList ∧
    followsForm "implementation(platform(libs.firebase.bom))".toList
      "libs.firebase.bom".toList = false ∧
    parseProjectDependency
      "testImplementation(projects.testUtils); implementation(projects.core)".toList =
      dotToModule "projects.testUtils".toList ∧
    dotToModule "projects.testUtils".toList = ":test-utils".toList ∧
    followsForm "testImplementation(projects.testUtils); implementation(projects.core)".toList
      "projects.testUtils".toList = false := by
  refine ⟨by decide, by decide, by decide, by decide, by decide⟩

/-! ## Termination of the resolver -/

theorem analyzeVisit_weight (T : ProjectTree) (maxDepth : Int) (W : Str → Nat) (cur : Str)
    (st : AnalyzeState) :
    ((analyzeVisit T maxDepth cur st).queue.map W).sum ≤
      (st.queue.map W).sum + ((children T cur).map W).sum := by
  rcases analyzeVisit_split T maxDepth cur st with ⟨_, he⟩ | ⟨_, hf, _, he⟩
  · rw [he]; omega
  · rw [he]; simp [children, hf]

theorem analyzeLoop_terminates_acyclic (T : ProjectTree) (maxDepth : Int) (W : Str → Nat)
    (hW : ∀ m, W m = 1 + ((children T m).map W).sum) (fuel : Nat) (st : AnalyzeState)
    (hfuel : (st.queue.map W).sum ≤ fuel) :
    ∃ res, analyzeLoop T maxDepth fuel st = some res := by
  induction fuel generalizing st with
  | zero =>
    unfold analyzeLoop
    cases hq : st.queue with
    | nil => exact ⟨_, rfl⟩
    | cons cur rest =>
      rw [hq] at hfuel
      have := hW cur
      simp only [List.map_cons, List.sum_cons] at hfuel
      omega
  | succ fuel ih =>
    unfold analyzeLoop
    cases hq : st.queue with
    | nil => exact ⟨_, rfl⟩
    | cons cur rest =>
      simp only
      apply ih
      have h1 := analyzeVisit_weight T maxDepth W cur { st with queue := rest }
      rw [hq] at hfuel
      have := hW cur
      simp only [List.map_cons, List.sum_cons] at hfuel h1
      omega

theorem lex_of_le_of_lt (D : Nat) (x y : Fin (D + 1) → Nat) (d : Fin (D + 1))
    (hle : ∀ j, j ≤ d → x j ≤ y j) (hlt : x d < y d) :
    LevelLex D x y := by
  classical
  have hex : ∃ n, ∃ h : n < D + 1, x ⟨n, h⟩ ≠ y ⟨n, h⟩ := ⟨d.1, d.2, by
    have : x d ≠ y d := by omega
    exact this⟩
  obtain ⟨hn, hne⟩ := Nat.find_spec hex
  have hmin : ∀ m, m < Nat.find hex → ∀ h : m < D + 1, x ⟨m, h⟩ = y ⟨m, h⟩ := by
    intro m hm h
    by_contra hcon
    exact Nat.find_min hex hm ⟨h, hcon⟩
  have hled : Nat.find hex ≤ d.1 := Nat.find_min' hex ⟨d.2, by
    have : x d ≠ y d := by omega
    exact this⟩
  refine ⟨⟨Nat.find hex, hn⟩, fun j hj => hmin j.1 hj j.2, ?_⟩
  have := hle ⟨Nat.find hex, hn⟩ hled
  exact lt_of_le_of_ne this hne

theorem levelCount_cons (D : Nat) (depth : Str → Int) (cur : Str) (rest : List Str) (j : Nat) :
    levelCount D depth (cur :: rest) j =
      levelCount D depth rest j + if depthLevel D depth cur = j then 1 else 0 := by
  unfold levelCount
  rw [List.countP_cons]
  simp

theorem enqueueDeps_levels (D : Nat) (cur : Str) (d : Nat) (hd : d < D) (deps : List Str)
    (q : List Str) (dm : Str → Int) (hcur : (d : Int) ≤ dm cur) (hnn : ∀ x, 0 ≤ dm x) :
    (∀ x, 0 ≤ (enqueueDeps cur deps (q, dm)).2 x) ∧
    ∀ j, j ≤ d → levelCount D (enqueueDeps cur deps (q, dm)).2 (enqueueDeps cur deps (q, dm)).1 j
      ≤ levelCount D dm q j := by
  induction deps generalizing q dm with
  | nil => exact ⟨hnn, fun j _ => le_refl _⟩
  | cons dep deps ih =>
    simp only [enqueueDeps]
    have hnn1 : ∀ x, 0 ≤ Function.update dm dep (dm cur + 1) x := by
      intro x
      by_cases hx : x = dep
      · subst hx; simp; have := hnn cur; omega
      · simp [Function.update, hx]; exact hnn x
    have hcur1 : (d : Int) ≤ Function.update dm dep (dm cur + 1) cur := by
      by_cases hx : cur = dep
      · subst hx; simp; omega
      · simp [Function.update, hx]; exact hcur
    obtain ⟨r1, r2⟩ := ih (q ++ [dep]) (Function.update dm dep (dm cur + 1)) hcur1 hnn1
    refine ⟨r1, fun j hj => le_trans (r2 j hj) ?_⟩
    have hdep : depthLevel D (Function.update dm dep (dm cur + 1)) dep ≠ j := by
      unfold depthLevel
      simp only [Function.update_same]
      have : d + 1 ≤ (dm cur + 1).toNat := by omega
      omega
    unfold levelCount
    rw [List.countP_append]
    have h1 : List.countP (fun q => decide (depthLevel D (Function.update dm dep (dm cur + 1)) q
        = j)) [dep] = 0 := by
      simp [List.countP_cons, hdep]
    rw [h1, Nat.add_zero]
    apply List.countP_mono_left
    intro x _ hx
    by_cases hxd : x = dep
    · subst hxd
      simp only [decide_eq_true_eq] at hx
      exact absurd hx hdep
    · simpa [depthLevel, Function.update, hxd] using hx

theorem analyzeVisit_lex (T : ProjectTree) (maxDepth : Int) (hpos : 0 < maxDepth) (cur : Str)
    (st : AnalyzeState) (hnn : ∀ x, 0 ≤ st.depth x) :
    (∀ x, 0 ≤ (analyzeVisit T maxDepth cur st).depth x) ∧
    LevelLex maxDepth.toNat
      (fun i => levelCount maxDepth.toNat (analyzeVisit T maxDepth cur st).depth
        (analyzeVisit T maxDepth cur st).queue i)
      (fun i => levelCount maxDepth.toNat st.depth (cur :: st.queue) i) := by
  have hlev : depthLevel maxDepth.toNat st.depth cur < maxDepth.toNat + 1 := by
    unfold depthLevel; omega
  rcases analyzeVisit_split T maxDepth cur st with ⟨_, he⟩ | ⟨hs, hf, _, he⟩
  · rw [he]
    refine ⟨hnn, lex_of_le_of_lt _ _ _ ⟨depthLevel maxDepth.toNat st.depth cur, hlev⟩ ?_ ?_⟩
    · intro j _
      simp only [levelCount_cons]
      omega
    · simp only [levelCount_cons]
      simp
  · rw [he]
    have hlt : ¬ maxDepth ≤ st.depth cur := fun h => hs ⟨hpos, h⟩
    have hc0 := hnn cur
    have hd : (st.depth cur).toNat < maxDepth.toNat := by omega
    have hlevel : depthLevel maxDepth.toNat st.depth cur = (st.depth cur).toNat := by
      unfold depthLevel; omega
    obtain ⟨r1, r2⟩ := enqueueDeps_levels maxDepth.toNat cur (st.depth cur).toNat hd
      (scanOf T cur).1 st.queue st.depth (by omega) hnn
    rw [enqueueDeps_queue] at r2
    refine ⟨r1, lex_of_le_of_lt _ _ _ ⟨depthLevel maxDepth.toNat st.depth cur, hlev⟩ ?_ ?_⟩
    · intro j hj
      have hj2 : j.1 ≤ (st.depth cur).toNat := by
        have : j.1 ≤ depthLevel maxDepth.toNat st.depth cur := hj
        omega
      have := r2 j.1 hj2
      simp only [levelCount_cons]
      omega
    · have := r2 (st.depth cur).toNat (le_refl _)
      simp only [levelCount_cons, hlevel]
      simp only [if_true]
      omega

theorem analyzeLoop_terminates_pos (T : ProjectTree) (maxDepth : Int) (hpos : 0 < maxDepth)
    (st : AnalyzeState) (hnn : ∀ x, 0 ≤ st.depth x) :
    ∃ fuel res, analyzeLoop T maxDepth fuel st = some res := by
  have hwf : WellFounded (LevelLex maxDepth.toNat) :=
    Pi.Lex.wellFounded _ (fun _ => Nat.lt_wfRel.wf)
  have hwf2 := InvImage.wf (fun s : AnalyzeState =>
    (fun i : Fin (maxDepth.toNat + 1) => levelCount maxDepth.toNat s.depth s.queue i)) hwf
  revert hnn
  induction st using hwf2.induction with
  | _ st ih =>
    intro hnn
    cases hq : st.queue with
    | nil => exact ⟨0, _, by unfold analyzeLoop; rw [hq]⟩
    | cons cur rest =>
      obtain ⟨h1, h2⟩ := analyzeVisit_lex T maxDepth hpos cur { st with queue := rest } hnn
      have h3 : InvImage (LevelLex maxDepth.toNat)
          (fun s : AnalyzeState =>
            (fun i : Fin (maxDepth.toNat + 1) => levelCount maxDepth.toNat s.depth s.queue i))
          (analyzeVisit T maxDepth cur { st with queue := rest }) st := by
        simp only [InvImage, hq]
        exact h2
      obtain ⟨fuel, res, h⟩ := ih _ h3 h1
      exact ⟨fuel + 1, res, by unfold analyzeLoop; rw [hq]; exact h⟩

/-- C11: on a finite project tree the loop of `Analyze` drains its queue and
returns whenever `maxDepth > 0`, whatever cycles or self-references the
module graph has, and, for any `maxDepth`, whenever the declared
project-dependency graph has no cycle; more fuel gives the same result. -/
theorem C11_analyze_terminates (T : ProjectTree) (root : Str) (maxDepth : Int)
    (h : 0 < maxDepth ∨ ∀ m, ¬ Relation.TransGen (DeclaredEdge T) m m) :
    ∃ fuel res, ∀ fuel1, fuel ≤ fuel1 → Analyze T root maxDepth fuel1 = some res := by
  have hex : ∃ fuel res, Analyze T root maxDepth fuel = some res := by
    rcases h with hpos | hacyc
    · exact analyzeLoop_terminates_pos T maxDepth hpos _ (by
        intro x
        by_cases hx : x = root <;> simp [Function.update, hx])
    · obtain ⟨W, hW⟩ := weight_exists T hacyc
      exact ⟨W root, analyzeLoop_terminates_acyclic T maxDepth W hW (W root) _ (by simp)⟩
  obtain ⟨fuel, res, hres⟩ := hex
  exact ⟨fuel, res, fun fuel1 hle => analyzeLoop_mono T maxDepth _ _ res hres fuel1 hle⟩

set_option maxRecDepth 100000 in
/-- C11 on the cyclic tree `:a <-> :b` with `maxDepth = 3`: the queue drains
after four dequeues. -/
theorem C11_analyze_terminates_witness :
    Relation.TransGen (DeclaredEdge cycleTree) ":a".toList ":a".toList ∧
    Analyze cycleTree ":a".toList 3 4 =
      some ([(":a".toList, [":b".toList]), (":b".toList, [":a".toList])],
        [(":a".toList, []), (":b".toList, [])]) ∧
    ∃ fuel res, ∀ fuel1, fuel ≤ fuel1 → Analyze cycleTree ":a".toList 3 fuel1 = some res :=
  ⟨Relation.TransGen.tail
      (Relation.TransGen.single
        (show DeclaredEdge cycleTree ":a".toList ":b".toList from ⟨by decide, by decide⟩))
      (show DeclaredEdge cycleTree ":b".toList ":a".toList from ⟨by decide, by decide⟩),
    by decide, C11_analyze_terminates cycleTree ":a".toList 3 (Or.inl (by decide))⟩

set_option maxRecDepth 100000 in
theorem cycleTree_children :
    children cycleTree ":a".toList = [":b".toList] ∧
    children cycleTree ":b".toList = [":a".toList] := by
  refine ⟨by decide, by decide⟩

theorem cycleTree_never_drains (fuel : Nat) (st : AnalyzeState) (hne : st.queue ≠ [])
    (hq : ∀ q ∈ st.queue, q = ":a".toList ∨ q = ":b".toList) :
    analyzeLoop cycleTree 0 fuel st = none := by
  induction fuel generalizing st with
  | zero =>
    unfold analyzeLoop
    cases hqq : st.queue with
    | nil => exact absurd hqq hne
    | cons cur rest => rfl
  | succ fuel ih =>
    unfold analyzeLoop
    cases hqq : st.queue with
    | nil => exact absurd hqq hne
    | cons cur rest =>
      simp only
      rw [hqq] at hq
      have hcur := hq cur (List.mem_cons_self _ _)
      have hqueue := analyzeVisit_queue_zero cycleTree cur { st with queue := rest }
      simp only at hqueue
      apply ih
      · rw [hqueue]
        rcases hcur with rfl | rfl
        · rw [cycleTree_children.1]; simp
        · rw [cycleTree_children.2]; simp
      · intro q hqm
        rw [hqueue] at hqm
        rcases List.mem_append.mp hqm with h | h
        · exact hq q (List.mem_cons_of_mem _ h)
        · rcases hcur with rfl | rfl
          · rw [cycleTree_children.1] at h
            exact Or.inr (by simpa using h)
          · rw [cycleTree_children.2] at h
            exact Or.inl (by simpa using h)

/-- C12, amended: on the cyclic input in which `:a` declares `:b` and `:b`
declares `:a`, `Analyze(:a, maxDepth)` drains its queue and returns for every
`maxDepth > 0`, while `Analyze(:a, 0)` never returns: the queue is not empty
after any number of dequeues. -/
theorem C12_cycle_needs_depth_limit (maxDepth : Int) (hpos : 0 < maxDepth) :
    (∀ fuel, Analyze cycleTree ":a".toList 0 fuel = none) ∧
    ∃ fuel res, ∀ fuel1, fuel ≤ fuel1 →
      Analyze cycleTree ":a".toList maxDepth fuel1 = some res := by
  refine ⟨fun fuel => cycleTree_never_drains fuel _ (by simp) (by simp), ?_⟩
  obtain ⟨fuel, res, hres⟩ := analyzeLoop_terminates_pos cycleTree maxDepth hpos
    { projectDeps := [], libDeps := [], queue := [":a".toList],
      depth := Function.update (fun _ => 0) ":a".toList 0 }
    (by
      intro x
      by_cases hx : x = ":a".toList <;> simp [Function.update, hx])
  exact ⟨fuel, res, fun fuel1 hle => analyzeLoop_mono cycleTree maxDepth _ _ res hres fuel1 hle⟩

set_option maxRecDepth 100000 in
/-- C12 with `maxDepth = 1`: the run returns after two dequeues. -/
theorem C12_cycle_needs_depth_limit_witness :
    Analyze cycleTree ":a".toList 1 2 =
      some ([(":a".toList, [":b".toList])], [(":a".toList, [])]) ∧
    (∀ fuel, Analyze cycleTree ":a".toList 0 fuel = none) ∧
    ∃ fuel res, ∀ fuel1, fuel ≤ fuel1 → Analyze cycleTree ":a".toList 1 fuel1 = some res :=
  ⟨by decide, C12_cycle_needs_depth_limit 1 (by decide)⟩

/-- C12 as stated fails: on the input in which `:a` declares `:b` and `:b`
declares `:a`, no number of dequeues drains the queue of `Analyze(:a, 0)`. -/
theorem C12_counterexample :
    ¬ ∃ fuel res, Analyze cycleTree ":a".toList 0 fuel = some res := by
  rintro ⟨fuel, res, h⟩
  have := cycleTree_never_drains fuel
    { projectDeps := [], libDeps := [], queue := [":a".toList],
      depth := Function.update (fun _ => 0) ":a".toList 0 } (by simp) (by simp)
  unfold Analyze at h
  rw [this] at h
  exact absurd h (by simp)

/-! ## Termination of the duplicated-tree walk -/

theorem digitsValue_toDigitsCore (fuel n : Nat) (ds : List Char) (h : n < fuel) :
    digitsValue 0 (Nat.toDigitsCore 10 fuel n ds) = digitsValue n ds := by
  induction fuel generalizing n ds with
  | zero => omega
  | succ fuel ih =>
    have hdig : ∀ k, k < 10 → (Nat.digitChar k).toNat - 48 = k := by decide
    have hd := hdig (n % 10) (Nat.mod_lt _ (by omega))
    simp only [Nat.toDigitsCore]
    split
    · rename_i h0
      have hn : n % 10 = n := by omega
      simp only [digitsValue, List.foldl_cons, hd]
      rw [hn]; simp
    · rename_i h0
      rw [ih (n / 10) _ (by omega)]
      simp only [digitsValue, List.foldl_cons, hd]
      have : n / 10 * 10 + n % 10 = n := by omega
      rw [this]

theorem toDigits_injective (n m : Nat) (h : Nat.toDigits 10 n = Nat.toDigits 10 m) : n = m := by
  have h1 := digitsValue_toDigitsCore (n + 1) n [] (by omega)
  have h2 := digitsValue_toDigitsCore (m + 1) m [] (by omega)
  unfold Nat.toDigits at h
  rw [h] at h1
  rw [h1] at h2
  simpa [digitsValue] using h2

theorem cloneID_injective (c : Str) (n m : Nat) (h : cloneID c n = cloneID c m) : n = m := by
  unfold cloneID at h
  have h1 := List.append_cancel_left h
  apply toDigits_injective
  simpa [Nat.repr, List.asString] using h1

theorem capSum_update_le (N : Nat) (D : List Str) (counters : Str → Nat) (c : Str) :
    capSum N D (Function.update counters c (counters c + 1)) ≤ capSum N D counters := by
  unfold capSum
  induction D with
  | nil => simp
  | cons x D ih =>
    simp only [List.map_cons, List.sum_cons]
    by_cases hx : x = c
    · subst hx; simp only [Function.update_same]; omega
    · simp only [Function.update_noteq hx]; omega

theorem capSum_update_lt (N : Nat) (D : List Str) (counters : Str → Nat) (c : Str)
    (hc : c ∈ D) (hle : counters c + 1 ≤ N) :
    capSum N D (Function.update counters c (counters c + 1)) + 1 ≤ capSum N D counters := by
  induction D with
  | nil => simp at hc
  | cons x D ih =>
    have hrest := capSum_update_le N D counters c
    unfold capSum at hrest ih ⊢
    simp only [List.map_cons, List.sum_cons]
    by_cases hx : x = c
    · subst hx; simp only [Function.update_same]; omega
    · have hcD : c ∈ D := by
        rcases List.mem_cons.mp hc with h | h
        · exact absurd h.symm hx
        · exact h
      have := ih hcD
      simp only [Function.update_noteq hx]; omega

theorem unclaimed_mapSet_le (D : List Str) (processed : GoMap Str) (dep v : Str) :
    unclaimed D (mapSet processed dep v) ≤ unclaimed D processed := by
  unfold unclaimed
  apply List.countP_mono_left
  intro x _ hx
  by_cases hxd : x = dep
  · subst hxd; rw [mapGet_mapSet_self] at hx; simp at hx
  · rw [mapGet_mapSet_ne _ _ _ _ hxd] at hx; exact hx

theorem unclaimed_mapSet_lt (D : List Str) (processed : GoMap Str) (dep v : Str)
    (hd : dep ∈ D) (hnone : mapGet processed dep = none) :
    unclaimed D (mapSet processed dep v) + 1 ≤ unclaimed D processed := by
  induction D with
  | nil => simp at hd
  | cons x D ih =>
    have hrest := unclaimed_mapSet_le D processed dep v
    unfold unclaimed at hrest ih ⊢
    simp only [List.countP_cons]
    by_cases hx : x = dep
    · subst hx
      rw [mapGet_mapSet_self, hnone]
      simp; omega
    · have hdD : dep ∈ D := by
        rcases List.mem_cons.mp hd with h | h
        · exact absurd h.symm hx
        · exact h
      have := ih hdD
      rw [mapGet_mapSet_ne _ _ _ _ hx]
      omega

theorem queueWeight_append (P L : GoMap (List Str)) (q : List Str) (x : Str) :
    queueWeight P L (q ++ [x]) =
      queueWeight P L q + if isKey P L x then heavy P L else 1 := by
  simp [queueWeight]

theorem queueWeight_cons (P L : GoMap (List Str)) (q : List Str) (x : Str) :
    queueWeight P L (x :: q) =
      (if isKey P L x then heavy P L else 1) + queueWeight P L q := by
  simp [queueWeight]

theorem heavy_pos (P L : GoMap (List Str)) : 1 ≤ heavy P L := by
  unfold heavy; omega

theorem entry_weight_le (P L : GoMap (List Str)) (x : Str) :
    (if isKey P L x then heavy P L else 1) ≤ heavy P L := by
  split
  · exact le_refl _
  · exact heavy_pos P L

theorem pot_step_heavy (H a b q : Nat) (h : a + 1 ≤ b) : q + H + H * a ≤ q + H * b := by
  have : H * (a + 1) ≤ H * b := Nat.mul_le_mul_left H h
  rw [Nat.mul_add, Nat.mul_one] at this
  omega

theorem pot_step_light (H a b q : Nat) (h : a ≤ b) : q + H * a ≤ q + H * b := by
  have : H * a ≤ H * b := Nat.mul_le_mul_left H h
  omega

theorem cap_exists_list (K D : List Str) :
    ∃ N, ∀ c ∈ D, ∀ n, cloneID c n ∈ K → n ≤ N := by
  induction K with
  | nil => exact ⟨0, fun c _ n h => by simp at h⟩
  | cons k K ihK =>
    obtain ⟨N1, h1⟩ := ihK
    have hk : ∃ N2, ∀ c ∈ D, ∀ n, cloneID c n = k → n ≤ N2 := by
      induction D with
      | nil => exact ⟨0, fun c hc => by simp at hc⟩
      | cons c D ihD =>
        obtain ⟨N3, h3⟩ := ihD (fun c hc n h => h1 c (List.mem_cons_of_mem _ hc) n h)
        by_cases hex : ∃ n0, cloneID c n0 = k
        · obtain ⟨n0, hn0⟩ := hex
          refine ⟨max N3 n0, fun x hx n hn => ?_⟩
          rcases List.mem_cons.mp hx with rfl | hx
          · have : n = n0 := cloneID_injective x n n0 (by rw [hn, hn0])
            omega
          · have := h3 x hx n hn
            omega
        · refine ⟨N3, fun x hx n hn => ?_⟩
          rcases List.mem_cons.mp hx with rfl | hx
          · exact absurd ⟨n, hn⟩ hex
          · exact h3 x hx n hn
    obtain ⟨N2, h2⟩ := hk
    refine ⟨max N1 N2, fun c hc n hn => ?_⟩
    rcases List.mem_cons.mp hn with h | h
    · have := h2 c hc n h; omega
    · have := h1 c hc n h; omega

theorem isKey_iff (P L : GoMap (List Str)) (q : Str) :
    isKey P L q = true ↔ q ∈ mapKeys P ++ mapKeys L := by
  unfold isKey
  rw [Bool.or_eq_true, mapGet_isSome_iff, mapGet_isSome_iff, List.mem_append]

theorem cap_exists (P L : GoMap (List Str)) :
    ∃ N, ∀ c ∈ allDeps P L, ∀ n, isKey P L (cloneID c n) = true → n ≤ N := by
  obtain ⟨N, hN⟩ := cap_exists_list (mapKeys P ++ mapKeys L) (allDeps P L)
  exact ⟨N, fun c hc n hn => hN c hc n ((isKey_iff P L _).mp hn)⟩

theorem cloneChildren_potential (P L : GoMap (List Str)) (N : Nat)
    (hN : ∀ c ∈ allDeps P L, ∀ n, isKey P L (cloneID c n) = true → n ≤ N)
    (k : Kind) (nodeID : Str) (childDeps : List Str)
    (hsub : ∀ c ∈ childDeps, c ∈ allDeps P L) (st : RenderState) :
    renderPotential P L N (cloneChildren k nodeID childDeps st) ≤
      renderPotential P L N st + childDeps.length := by
  induction childDeps generalizing st with
  | nil => simp [cloneChildren]
  | cons c rest ih =>
    have hrest : ∀ x ∈ rest, x ∈ allDeps P L := fun x hx => hsub x (List.mem_cons_of_mem _ hx)
    have hc : c ∈ allDeps P L := hsub c (List.mem_cons_self _ _)
    simp only [cloneChildren, List.length_cons]
    by_cases hkey : edgeKey nodeID c ∈ st.processedEdges
    · rw [if_neg (not_not.mpr hkey)]
      have := ih hrest st
      omega
    · rw [if_pos hkey]
      simp only [Function.update_same]
      have hle := capSum_update_le N (allDeps P L) st.nodeCounters c
      by_cases henq : cloneID c (st.nodeCounters c + 1) ∈ st.queuedNodes
      · rw [if_neg (not_not.mpr henq)]
        refine le_trans (ih hrest _) ?_
        simp only [renderPotential, renderSlack]
        have := pot_step_light (heavy P L)
          (capSum N (allDeps P L) (Function.update st.nodeCounters c (st.nodeCounters c + 1)) +
            unclaimed (allDeps P L) st.processedNodes)
          (capSum N (allDeps P L) st.nodeCounters + unclaimed (allDeps P L) st.processedNodes)
          (queueWeight P L st.queue) (by omega)
        omega
      · rw [if_pos henq]
        refine le_trans (ih hrest _) ?_
        simp only [renderPotential, renderSlack, queueWeight_append]
        by_cases hk : isKey P L (cloneID c (st.nodeCounters c + 1)) = true
        · rw [if_pos hk]
          have hcap := hN c hc _ hk
          have hlt := capSum_update_lt N (allDeps P L) st.nodeCounters c hc hcap
          have := pot_step_heavy (heavy P L)
            (capSum N (allDeps P L) (Function.update st.nodeCounters c (st.nodeCounters c + 1)) +
              unclaimed (allDeps P L) st.processedNodes)
            (capSum N (allDeps P L) st.nodeCounters + unclaimed (allDeps P L) st.processedNodes)
            (queueWeight P L st.queue) (by omega)
          omega
        · rw [if_neg hk]
          have := pot_step_light (heavy P L)
            (capSum N (allDeps P L) (Function.update st.nodeCounters c (st.nodeCounters c + 1)) +
              unclaimed (allDeps P L) st.processedNodes)
            (capSum N (allDeps P L) st.nodeCounters + unclaimed (allDeps P L) st.processedNodes)
            (queueWeight P L st.queue) (by omega)
          omega

theorem length_le_flatMap (m : GoMap (List Str)) (q : Str) (l : List Str)
    (h : mapGet m q = some l) :
    l.length ≤ (m.flatMap (fun e => e.2)).length ∧ ∀ x ∈ l, x ∈ m.flatMap (fun e => e.2) := by
  induction m with
  | nil => simp [mapGet] at h
  | cons e m ih =>
    obtain ⟨k1, v1⟩ := e
    simp only [mapGet] at h
    simp only [List.flatMap_cons, List.length_append, List.mem_append]
    by_cases hk : k1 = q
    · rw [if_pos hk] at h
      simp only [Option.some.injEq] at h
      subst h
      exact ⟨by omega, fun x hx => Or.inl hx⟩
    · rw [if_neg hk] at h
      obtain ⟨h1, h2⟩ := ih h
      exact ⟨by omega, fun x hx => Or.inr (h2 x hx)⟩

theorem listLen_sum_le (P L : GoMap (List Str)) (q : Str) :
    listLen P q + listLen L q ≤ (allDeps P L).length := by
  unfold listLen allDeps
  rw [List.length_append]
  have hP : (match mapGet P q with | some l => l.length | none => 0) ≤
      (P.flatMap (fun e => e.2)).length := by
    cases h : mapGet P q with
    | none => simp
    | some l => exact (length_le_flatMap P q l h).1
  have hL : (match mapGet L q with | some l => l.length | none => 0) ≤
      (L.flatMap (fun e => e.2)).length := by
    cases h : mapGet L q with
    | none => simp
    | some l => exact (length_le_flatMap L q l h).1
  omega

theorem mem_allDeps_left (P L : GoMap (List Str)) (q : Str) (l : List Str)
    (h : mapGet P q = some l) : ∀ x ∈ l, x ∈ allDeps P L := fun x hx =>
  List.mem_append.mpr (Or.inl ((length_le_flatMap P q l h).2 x hx))

theorem mem_allDeps_right (P L : GoMap (List Str)) (q : Str) (l : List Str)
    (h : mapGet L q = some l) : ∀ x ∈ l, x ∈ allDeps P L := fun x hx =>
  List.mem_append.mpr (Or.inr ((length_le_flatMap L q l h).2 x hx))

theorem cloneChildrenOf_potential (P L : GoMap (List Str)) (N : Nat)
    (hN : ∀ c ∈ allDeps P L, ∀ n, isKey P L (cloneID c n) = true → n ≤ N)
    (k : Kind) (m : GoMap (List Str)) (hm : m = P ∨ m = L) (nodeID dep : Str)
    (st : RenderState) :
    renderPotential P L N (cloneChildrenOf k m nodeID dep st) ≤
      renderPotential P L N st + listLen m dep := by
  unfold cloneChildrenOf listLen
  cases h : mapGet m dep with
  | none => simp
  | some childDeps =>
    simp only
    apply cloneChildren_potential P L N hN
    rcases hm with rfl | rfl
    · exact mem_allDeps_left m L dep childDeps h
    · exact mem_allDeps_right P m dep childDeps h

theorem visitDep_potential (P L : GoMap (List Str)) (N : Nat)
    (hN : ∀ c ∈ allDeps P L, ∀ n, isKey P L (cloneID c n) = true → n ≤ N)
    (k : Kind) (cur dep : Str) (hdep : dep ∈ allDeps P L) (st : RenderState) :
    renderPotential P L N (visitDep P L k cur dep st) ≤
      renderPotential P L N st + (allDeps P L).length := by
  unfold visitDep
  by_cases hproc : (mapGet st.processedNodes dep).isSome = true
  · rw [if_pos hproc]
    simp only
    have h2 := cloneChildrenOf_potential P L N hN Kind.library L (Or.inr rfl)
      (cloneID dep (Function.update st.nodeCounters dep (st.nodeCounters dep + 1) dep)) dep
      (cloneChildrenOf Kind.project P
        (cloneID dep (Function.update st.nodeCounters dep (st.nodeCounters dep + 1) dep)) dep
        { st with
          dotContent := st.dotContent ++
            [nodeStmt k (cloneID dep (Function.update st.nodeCounters dep
              (st.nodeCounters dep + 1) dep)) dep] ++
            [edgeStmt k cur (cloneID dep (Function.update st.nodeCounters dep
              (st.nodeCounters dep + 1) dep))],
          nodeCounters := Function.update st.nodeCounters dep (st.nodeCounters dep + 1) })
    have h1 := cloneChildrenOf_potential P L N hN Kind.project P (Or.inl rfl)
      (cloneID dep (Function.update st.nodeCounters dep (st.nodeCounters dep + 1) dep)) dep
      { st with
        dotContent := st.dotContent ++
          [nodeStmt k (cloneID dep (Function.update st.nodeCounters dep
            (st.nodeCounters dep + 1) dep)) dep] ++
          [edgeStmt k cur (cloneID dep (Function.update st.nodeCounters dep
            (st.nodeCounters dep + 1) dep))],
        nodeCounters := Function.update st.nodeCounters dep (st.nodeCounters dep + 1) }
    have h0 : renderPotential P L N
        { st with
          dotContent := st.dotContent ++
            [nodeStmt k (cloneID dep (Function.update st.nodeCounters dep
              (st.nodeCounters dep + 1) dep)) dep] ++
            [edgeStmt k cur (cloneID dep (Function.update st.nodeCounters dep
              (st.nodeCounters dep + 1) dep))],
          nodeCounters := Function.update st.nodeCounters dep (st.nodeCounters dep + 1) } ≤
        renderPotential P L N st := by
      simp only [renderPotential, renderSlack]
      have hle := capSum_update_le N (allDeps P L) st.nodeCounters dep
      exact pot_step_light _ _ _ _ (by omega)
    have hlen := listLen_sum_le P L dep
    omega
  · rw [if_neg hproc]
    have hnone : mapGet st.processedNodes dep = none := by
      cases h : mapGet st.processedNodes dep with
      | none => rfl
      | some v => rw [h] at hproc; exact absurd rfl hproc
    have hlt := unclaimed_mapSet_lt (allDeps P L) st.processedNodes dep cur hdep hnone
    have hw := entry_weight_le P L dep
    have hheavy := pot_step_heavy (heavy P L)
      (capSum N (allDeps P L) st.nodeCounters +
        unclaimed (allDeps P L) (mapSet st.processedNodes dep cur))
      (capSum N (allDeps P L) st.nodeCounters + unclaimed (allDeps P L) st.processedNodes)
      (queueWeight P L st.queue) (by omega)
    have key : ∀ (s2 : RenderState), s2.queue = st.queue → s2.nodeCounters = st.nodeCounters →
        s2.processedNodes = st.processedNodes →
        renderPotential P L N
          (if dep ∉ ({ s2 with processedNodes := mapSet s2.processedNodes dep cur } :
              RenderState).queuedNodes then
            { ({ s2 with processedNodes := mapSet s2.processedNodes dep cur } : RenderState) with
              queue := s2.queue ++ [dep],
              queuedNodes := setAdd s2.queuedNodes dep }
          else { s2 with processedNodes := mapSet s2.processedNodes dep cur }) ≤
        renderPotential P L N st + (allDeps P L).length := by
      intro s2 hq hcnt hp
      split
      · simp only [renderPotential, renderSlack, queueWeight_append, hq, hcnt, hp]
        omega
      · simp only [renderPotential, renderSlack, hq, hcnt, hp]
        omega
    simp only
    apply key
    · split <;> split <;> rfl
    · split <;> split <;> rfl
    · split <;> split <;> rfl

theorem visitDeps_potential (P L : GoMap (List Str)) (N : Nat)
    (hN : ∀ c ∈ allDeps P L, ∀ n, isKey P L (cloneID c n) = true → n ≤ N)
    (k : Kind) (cur : Str) (deps : List Str) (hsub : ∀ d ∈ deps, d ∈ allDeps P L)
    (st : RenderState) :
    renderPotential P L N (visitDeps P L k cur deps st) ≤
      renderPotential P L N st + deps.length * (allDeps P L).length := by
  induction deps generalizing st with
  | nil => simp [visitDeps]
  | cons d rest ih =>
    simp only [visitDeps, List.length_cons]
    have h1 := visitDep_potential P L N hN k cur d (hsub d (List.mem_cons_self _ _)) st
    have h2 := ih (fun x hx => hsub x (List.mem_cons_of_mem _ hx))
      (visitDep P L k cur d st)
    have : (rest.length + 1) * (allDeps P L).length =
        rest.length * (allDeps P L).length + (allDeps P L).length := by
      rw [Nat.add_mul, Nat.one_mul]
    omega

theorem visitDepsOf_potential (P L : GoMap (List Str)) (N : Nat)
    (hN : ∀ c ∈ allDeps P L, ∀ n, isKey P L (cloneID c n) = true → n ≤ N)
    (k : Kind) (m : GoMap (List Str)) (hm : m = P ∨ m = L) (cur : Str) (st : RenderState) :
    renderPotential P L N (visitDepsOf P L k m cur st) ≤
      renderPotential P L N st + listLen m cur * (allDeps P L).length := by
  unfold visitDepsOf listLen
  cases h : mapGet m cur with
  | none => simp
  | some deps =>
    simp only
    apply visitDeps_potential P L N hN
    rcases hm with rfl | rfl
    · exact mem_allDeps_left m L cur deps h
    · exact mem_allDeps_right P m cur deps h

theorem renderVisit_potential (P L : GoMap (List Str)) (N : Nat)
    (hN : ∀ c ∈ allDeps P L, ∀ n, isKey P L (cloneID c n) = true → n ≤ N)
    (cur : Str) (st : RenderState) :
    renderPotential P L N (renderVisit P L cur st) + 1 ≤
      renderPotential P L N st + if isKey P L cur then heavy P L else 1 := by
  unfold renderVisit
  simp only
  have h1 := visitDepsOf_potential P L N hN Kind.project P (Or.inl rfl) cur
    { st with queuedNodes := st.queuedNodes.filter (fun x => x ≠ cur) }
  have h2 := visitDepsOf_potential P L N hN Kind.library L (Or.inr rfl) cur
    (visitDepsOf P L Kind.project P cur
      { st with queuedNodes := st.queuedNodes.filter (fun x => x ≠ cur) })
  have h0 : renderPotential P L N
      { st with queuedNodes := st.queuedNodes.filter (fun x => x ≠ cur) } =
      renderPotential P L N st := rfl
  have hsum := listLen_sum_le P L cur
  have hmul : (listLen P cur + listLen L cur) * (allDeps P L).length ≤
      (allDeps P L).length * (allDeps P L).length := Nat.mul_le_mul_right _ hsum
  rw [Nat.add_mul] at hmul
  by_cases hk : isKey P L cur = true
  · rw [if_pos hk]
    unfold heavy
    omega
  · rw [if_neg hk]
    have hP : listLen P cur = 0 := by
      unfold listLen
      cases h : mapGet P cur with
      | none => rfl
      | some l => exact absurd (by simp [isKey, h]) hk
    have hL : listLen L cur = 0 := by
      unfold listLen
      cases h : mapGet L cur with
      | none => rfl
      | some l => exact absurd (by simp [isKey, h]) hk
    rw [hP, Nat.zero_mul] at h1
    rw [hL, Nat.zero_mul] at h2
    omega

theorem renderLoop_terminates (P L : GoMap (List Str)) (N : Nat)
    (hN : ∀ c ∈ allDeps P L, ∀ n, isKey P L (cloneID c n) = true → n ≤ N)
    (fuel : Nat) (st : RenderState) (hfuel : renderPotential P L N st ≤ fuel) :
    ∃ st1, renderLoop P L fuel st = some st1 := by
  induction fuel generalizing st with
  | zero =>
    unfold renderLoop
    cases hq : st.queue with
    | nil => exact ⟨_, rfl⟩
    | cons cur rest =>
      exfalso
      have hpos : 1 ≤ if isKey P L cur then heavy P L else 1 := by
        split
        · exact heavy_pos P L
        · exact le_refl _
      simp only [renderPotential, hq, queueWeight_cons] at hfuel
      omega
  | succ fuel ih =>
    unfold renderLoop
    cases hq : st.queue with
    | nil => exact ⟨_, rfl⟩
    | cons cur rest =>
      simp only
      apply ih
      have h1 := renderVisit_potential P L N hN cur { st with queue := rest }
      have h2 : renderPotential P L N st =
          (if isKey P L cur then heavy P L else 1) +
            renderPotential P L N { st with queue := rest } := by
        simp only [renderPotential, renderSlack, hq, queueWeight_cons]
        omega
      omega

theorem renderLoop_mono (P L : GoMap (List Str)) (fuel : Nat) (st st1 : RenderState)
    (h : renderLoop P L fuel st = some st1) (fuel1 : Nat) (hle : fuel ≤ fuel1) :
    renderLoop P L fuel1 st = some st1 := by
  induction fuel generalizing st fuel1 with
  | zero =>
    unfold renderLoop at h ⊢
    cases hq : st.queue with
    | nil => rw [hq] at h; simpa using h
    | cons cur rest => rw [hq] at h; simp at h
  | succ fuel ih =>
    unfold renderLoop at h ⊢
    cases hq : st.queue with
    | nil => rw [hq] at h; simpa using h
    | cons cur rest =>
      rw [hq] at h
      simp only at h
      obtain ⟨k, rfl⟩ : ∃ k, fuel1 = k + 1 := ⟨fuel1 - 1, by omega⟩
      simp only
      exact ih _ h k (by omega)

/-- C20: for every dependency graph given by two finite mappings and every
root, cycles and self-dependencies included, the breadth-first walk of
`createDotContent` in duplicated-tree mode drains its queue after finitely
many dequeues and returns a diagram; more fuel gives the same diagram. -/
theorem C20_duplicated_walk_terminates (projectDeps libDeps : GoMap (List Str))
    (rootModule direction : Str) :
    ∃ fuel stmts, ∀ fuel1, fuel ≤ fuel1 →
      createDotContent projectDeps libDeps rootModule direction true fuel1 = some stmts := by
  obtain ⟨N, hN⟩ := cap_exists projectDeps libDeps
  obtain ⟨F, st1, hst1⟩ : ∃ F st1, renderLoop projectDeps libDeps F
      { dotContent := header direction ++ [rootStmt rootModule],
        processedNodes := [],
        addedNodes := [rootModule],
        nodeCounters := fun _ => 0,
        queuedNodes := [rootModule],
        processedEdges := [],
        queue := [rootModule] } = some st1 :=
    ⟨_, renderLoop_terminates projectDeps libDeps N hN _ _ (le_refl _)⟩
  refine ⟨F, st1.dotContent ++ [Stmt.text "\x7d".toList], fun fuel1 hle => ?_⟩
  have := renderLoop_mono projectDeps libDeps _ _ st1 hst1 fuel1 hle
  unfold createDotContent
  simp only [if_true, this]

theorem createDotContent_mono (P L : GoMap (List Str)) (root dir : Str) (dup : Bool)
    (fuel fuel1 : Nat) (stmts : List Stmt)
    (h : createDotContent P L root dir dup fuel = some stmts) (hle : fuel ≤ fuel1) :
    createDotContent P L root dir dup fuel1 = some stmts := by
  unfold createDotContent at h ⊢
  cases dup with
  | false => simpa using h
  | true =>
    simp only [if_true] at h ⊢
    cases hr : renderLoop P L fuel
        { dotContent := header dir ++ [rootStmt root], processedNodes := [],
          addedNodes := [root], nodeCounters := fun _ => 0, queuedNodes := [root],
          processedEdges := [], queue := [root] } with
    | none => rw [hr] at h; simp at h
    | some st1 =>
      rw [hr] at h
      rw [renderLoop_mono P L fuel _ st1 hr fuel1 hle]
      exact h

theorem renderLoop_total (P L : GoMap (List Str)) (root dir : Str) :
    ∃ fuel stmts, ∀ fuel1, fuel ≤ fuel1 →
      createDotContent P L root dir true fuel1 = some stmts := by
  obtain ⟨N, hN⟩ := cap_exists P L
  obtain ⟨F, st1, hst1⟩ : ∃ F st1, renderLoop P L F
      { dotContent := header dir ++ [rootStmt root],
        processedNodes := [],
        addedNodes := [root],
        nodeCounters := fun _ => 0,
        queuedNodes := [root],
        processedEdges := [],
        queue := [root] } = some st1 :=
    ⟨_, renderLoop_terminates P L N hN _ _ (le_refl _)⟩
  refine ⟨F, st1.dotContent ++ [Stmt.text "\x7d".toList], fun fuel1 hle => ?_⟩
  have := renderLoop_mono P L _ _ st1 hst1 fuel1 hle
  unfold createDotContent
  simp only [if_true, this]

set_option maxRecDepth 100000 in
/-- C17, amended: on a project mapping with a dependency cycle the
duplicated-tree walk does not generate clones without bound: its queue drains
after finitely many dequeues and a diagram, with finitely many clone
declarations, is returned, the same for every larger fuel.  On the instance
`A -> {B}`, `B -> {A}` with root `A` the queue is not yet empty after three
dequeues and is empty after four, and the diagram holds exactly two clone
declarations, `B_1` labelled `B` and `A_1` labelled `A`. -/
theorem C17_cyclic_walk_drains (projectDeps libDeps : GoMap (List Str))
    (rootModule direction : Str)
    (_hcyc : ∃ m, Relation.TransGen (GraphEdge projectDeps) m m) :
    (∃ fuel stmts, ∀ fuel1, fuel ≤ fuel1 →
      createDotContent projectDeps libDeps rootModule direction true fuel1 = some stmts) ∧
    createDotContent cycleGraph [] "A".toList "LR".toList true 3 = none ∧
    ∃ stmts, (∀ n, createDotContent cycleGraph [] "A".toList "LR".toList true (4 + n)
        = some stmts) ∧
      cloneDecls stmts =
        [nodeStmt Kind.project "B_1".toList "B".toList,
         nodeStmt Kind.project "A_1".toList "A".toList] := by
  have h4 : ∃ stmts, createDotContent cycleGraph [] "A".toList "LR".toList true 4 = some stmts ∧
      cloneDecls stmts =
        [nodeStmt Kind.project "B_1".toList "B".toList,
         nodeStmt Kind.project "A_1".toList "A".toList] := ⟨_, rfl, by decide⟩
  obtain ⟨stmts, hs, hc⟩ := h4
  exact ⟨renderLoop_total projectDeps libDeps rootModule direction, by decide, stmts,
    fun n => createDotContent_mono cycleGraph [] "A".toList "LR".toList true 4 (4 + n) stmts hs
      (by omega), hc⟩

set_option maxRecDepth 100000 in
/-- C17 on the instance: `A -> B -> A` is a cycle of `cycleGraph`, and the
walk from `A` returns. -/
theorem C17_cyclic_walk_drains_witness :
    Relation.TransGen (GraphEdge cycleGraph) "A".toList "A".toList ∧
    ∃ fuel stmts, ∀ fuel1, fuel ≤ fuel1 →
      createDotContent cycleGraph [] "A".toList "LR".toList true fuel1 = some stmts :=
  have hcyc : Relation.TransGen (GraphEdge cycleGraph) "A".toList "A".toList :=
    Relation.TransGen.tail
      (Relation.TransGen.single
        (show GraphEdge cycleGraph "A".toList "B".toList from
          ⟨["B".toList], by decide, by decide⟩))
      (show GraphEdge cycleGraph "B".toList "A".toList from
        ⟨["A".toList], by decide, by decide⟩)
  ⟨hcyc, (C17_cyclic_walk_drains cycleGraph [] "A".toList "LR".toList ⟨_, hcyc⟩).1⟩

set_option maxRecDepth 100000 in
/-- C17 as stated fails: on the cyclic graph `A -> {B}`, `B -> {A}` with root
`A` the render queue drains after four dequeues and the diagram returned has
two clone declarations, so the walk does not emit more than `n` clone
declarations for every `n`. -/
theorem C17_counterexample :
    ∃ stmts, createDotContent cycleGraph [] "A".toList "LR".toList true 4 = some stmts ∧
      (cloneDecls stmts).length = 2 ∧
      outDegree stmts "A_1".toList = 0 ∧
      ¬ ∀ fuel, createDotContent cycleGraph [] "A".toList "LR".toList true fuel = none := by
  refine ⟨_, rfl, by decide, by decide, fun h => ?_⟩
  have := h 4
  revert this
  decide

end DepsAnalyser
